import Mathlib

/-!
Shallow embedding of the tongue-detection pipeline of the tongue-drum-chum
repository (src/unnamed/part_000, class TongueDrumApp), together with proofs
of the specification claims about it.

Conventions of the embedding:
* JavaScript numbers are modelled exactly: byte maps (Uint8ClampedArray) are
  total functions from flat pixel indices to naturals, fractional
  intermediate values are rationals, and the transcendental coordinates of
  the fallback generator are reals.
* Each rounding step performed by a Uint8ClampedArray store (round half to
  even) or by Math.round (floor of x + 1/2) is made explicit, and integer
  implementations of those roundings come with fidelity lemmas relating them
  to the rational formulas of the source.
* The flood fill of traceContour is a stack loop in the source; it is
  embedded with explicit fuel, and the fuel supplied by findContours
  (9·width·height + 1) dominates the maximal number of loop iterations
  (one initial push plus eight pushes per newly visited pixel).
-/

/-- Integer pixel coordinate, as pushed on the flood-fill stack; coordinates
may temporarily leave the image, so they are integers. -/
structure Pt where
  x : ℤ
  y : ℤ
deriving DecidableEq

/-- Axis-aligned bounding box {x, y, width, height} as computed by
getBoundingBox. -/
structure BBox where
  x : ℤ
  y : ℤ
  width : ℤ
  height : ℤ
deriving DecidableEq

/-- Flat index y·width + x used by the source for every map access (clamped
to 0 for out-of-range negatives, which the source never reads thanks to its
bounds checks). -/
def pixelIndex (W : ℕ) (p : Pt) : ℕ :=
  (p.y * W + p.x).toNat

/-- Luminance of one RGBA pixel: Math.round(0.299·R + 0.587·G + 0.114·B),
computed exactly over the integers. -/
def grayValue (r g b : ℕ) : ℕ :=
  (299 * r + 587 * g + 114 * b + 500) / 1000

/-- Fidelity of grayValue: it is exactly the source's
Math.round(0.299·R + 0.587·G + 0.114·B), i.e. ⌊x + 1/2⌋ of the rational
luminance. -/
theorem grayValue_eq_round (r g b : ℕ) :
    (grayValue r g b : ℤ) =
      ⌊(299 * r + 587 * g + 114 * b : ℚ) / 1000 + 1 / 2⌋ := by
  rw [show (299 * r + 587 * g + 114 * b : ℚ) / 1000 + 1 / 2 =
        ((2 * (299 * r + 587 * g + 114 * b) + 1000 : ℕ) : ℚ) / ((2000 : ℕ) : ℚ) by
      push_cast; ring]
  rw [Rat.floor_natCast_div_natCast, grayValue]
  omega

/-- Round-half-to-even of s/16, the value a Uint8ClampedArray stores for the
blur accumulator divided by the kernel sum 16. -/
def halfEven16 (s : ℕ) : ℕ :=
  if s % 16 < 8 then s / 16
  else if 8 < s % 16 then s / 16 + 1
  else if s / 16 % 2 = 0 then s / 16 else s / 16 + 1

/-- Fidelity of halfEven16: the stored byte is within 1/2 of the exact
quotient s/16, and a distance of exactly 1/2 only occurs at an even value,
which is the round-half-to-even rule of Uint8ClampedArray stores. -/
theorem halfEven16_fidelity (s : ℕ) :
    |(halfEven16 s : ℚ) - s / 16| ≤ 1 / 2 ∧
      (|(halfEven16 s : ℚ) - s / 16| = 1 / 2 → halfEven16 s % 2 = 0) := by
  have hdiv : s = 16 * (s / 16) + s % 16 := (Nat.div_add_mod s 16).symm
  have hq : (s : ℚ) = 16 * (s / 16 : ℕ) + (s % 16 : ℕ) := by exact_mod_cast hdiv
  have hdivq : (s : ℚ) / 16 = (s / 16 : ℕ) + (s % 16 : ℕ) / 16 := by rw [hq]; ring
  have hlt : s % 16 < 16 := Nat.mod_lt _ (by norm_num)
  rw [halfEven16]
  rcases lt_trichotomy (s % 16) 8 with h | h | h
  · rw [if_pos h, hdivq]
    have hr0 : (0:ℚ) ≤ ((s % 16 : ℕ) : ℚ) := by positivity
    have hr : ((s % 16 : ℕ) : ℚ) < 8 := by exact_mod_cast h
    constructor
    · rw [abs_le]; constructor <;> linarith
    · intro habs
      exfalso
      rw [abs_eq (by norm_num : (0:ℚ) ≤ 1/2)] at habs
      rcases habs with h1 | h1 <;> linarith
  · rw [if_neg (by omega), if_neg (by omega)]
    have hr : ((s % 16 : ℕ) : ℚ) = 8 := by exact_mod_cast h
    by_cases hpar : s / 16 % 2 = 0
    · rw [if_pos hpar, hdivq, hr]
      refine ⟨by rw [abs_le]; constructor <;> linarith, fun _ => hpar⟩
    · rw [if_neg hpar, hdivq, hr]
      refine ⟨by rw [abs_le]; push_cast; constructor <;> linarith, fun _ => by omega⟩
  · rw [if_neg (by omega), if_pos h, hdivq]
    have hr : (8:ℚ) < ((s % 16 : ℕ) : ℚ) := by exact_mod_cast h
    have hr16 : ((s % 16 : ℕ) : ℚ) < 16 := by exact_mod_cast hlt
    constructor
    · rw [abs_le]; push_cast; constructor <;> linarith
    · intro habs
      exfalso
      rw [abs_eq (by norm_num : (0:ℚ) ≤ 1/2)] at habs
      push_cast at habs
      rcases habs with h1 | h1 <;> linarith

/-- Binary search for the integer square root, with explicit fuel; the
invariant lo² ≤ n < hi² is maintained and the gap halves each step. -/
def isqrtAux (n : ℕ) : ℕ → ℕ → ℕ → ℕ
  | 0, lo, _ => lo
  | fuel + 1, lo, hi =>
    if hi ≤ lo + 1 then lo
    else
      let m := (lo + hi) / 2
      if m * m ≤ n then isqrtAux n fuel m hi else isqrtAux n fuel lo m

/-- Integer square root ⌊√n⌋, computed by fueled binary search (the core
library Nat.sqrt is a well-founded recursion and does not reduce in the
kernel). -/
def isqrt (n : ℕ) : ℕ :=
  isqrtAux n (n + 1) 0 (n + 1)

theorem isqrtAux_correct (n : ℕ) :
    ∀ fuel lo hi, lo * lo ≤ n → n < hi * hi → hi ≤ lo + 2 ^ fuel →
      isqrtAux n fuel lo hi * isqrtAux n fuel lo hi ≤ n ∧
        n < (isqrtAux n fuel lo hi + 1) * (isqrtAux n fuel lo hi + 1) := by
  intro fuel
  induction fuel with
  | zero =>
    intro lo hi h1 h2 h3
    have hlt : lo < hi := by
      by_contra hcon
      exact absurd h2 (not_lt.mpr ((Nat.mul_le_mul (by omega) (by omega)).trans h1))
    have : hi = lo + 1 := by simpa using Nat.le_antisymm (by simpa using h3) hlt
    subst this
    simpa [isqrtAux] using ⟨h1, h2⟩
  | succ fuel ih =>
    intro lo hi h1 h2 h3
    rw [isqrtAux]
    by_cases hle : hi ≤ lo + 1
    · have hlt : lo < hi := by
        by_contra hcon
        exact absurd h2 (not_lt.mpr ((Nat.mul_le_mul (by omega) (by omega)).trans h1))
      have : hi = lo + 1 := by omega
      subst this
      simpa using ⟨h1, h2⟩
    · simp only [if_neg hle]
      have hpow : 2 ^ (fuel + 1) = 2 * 2 ^ fuel := by ring
      have hfuel1 : (0:ℕ) < 2 ^ fuel := Nat.pos_pow_of_pos _ (by norm_num)
      by_cases hm : (lo + hi) / 2 * ((lo + hi) / 2) ≤ n
      · simp only [if_pos hm]
        exact ih _ _ hm h2 (by omega)
      · simp only [if_neg hm]
        exact ih _ _ h1 (by omega) (by omega)

/-- Correctness of isqrt: it is the floor of the square root. -/
theorem isqrt_correct (n : ℕ) :
    isqrt n * isqrt n ≤ n ∧ n < (isqrt n + 1) * (isqrt n + 1) := by
  have h3 : n + 1 ≤ 0 + 2 ^ (n + 1) := by
    have h := Nat.lt_two_pow n
    have hp : 2 ^ (n + 1) = 2 * 2 ^ n := by ring
    omega
  exact isqrtAux_correct n (n + 1) 0 (n + 1) (by simp) (by nlinarith) h3

/-- Nearest integer to √s (Math.round applied to Math.sqrt): since
(k + 1/2)² = k² + k + 1/4 is never an integer, the tie case of rounding never
occurs and the answer is isqrt s when s ≤ isqrt s·(isqrt s + 1), else
isqrt s + 1. -/
def roundSqrt (s : ℕ) : ℕ :=
  let n := isqrt s
  if s ≤ n * n + n then n else n + 1

/-- Fidelity of roundSqrt: the result k satisfies (2k - 1)² ≤ 4s < (2k + 1)²,
i.e. √s lies within 1/2 of k; together with the impossibility of 4s being an
odd square this pins k as the Math.round of √s. -/
theorem roundSqrt_fidelity (s : ℕ) :
    (2 * roundSqrt s - 1) * (2 * roundSqrt s - 1) ≤ 4 * s ∧
      4 * s < (2 * roundSqrt s + 1) * (2 * roundSqrt s + 1) := by
  obtain ⟨h1, h2⟩ := isqrt_correct s
  set k := isqrt s with hk
  rw [roundSqrt, ← hk]
  by_cases h : s ≤ k * k + k
  · rw [if_pos h]
    constructor
    · have ha : (2 * k - 1) * (2 * k - 1) ≤ (2 * k) * (2 * k) :=
        Nat.mul_le_mul (by omega) (by omega)
      refine ha.trans ?_
      calc (2 * k) * (2 * k) = 4 * (k * k) := by ring
        _ ≤ 4 * s := Nat.mul_le_mul_left 4 h1
    · have hexp : (2 * k + 1) * (2 * k + 1) = 4 * (k * k + k) + 1 := by ring
      rw [hexp]
      linarith
  · rw [if_neg h]
    push_neg at h
    constructor
    · have he : 2 * (k + 1) - 1 = 2 * k + 1 := by omega
      rw [he]
      have hexp : (2 * k + 1) * (2 * k + 1) = 4 * (k * k + k) + 1 := by ring
      rw [hexp]
      linarith
    · have hexp : (2 * (k + 1) + 1) * (2 * (k + 1) + 1) =
          4 * ((k + 1) * (k + 1)) + 4 * (k + 1) + 1 := by ring
      rw [hexp]
      linarith

/-- Byte stored in the Sobel edge map: Math.min(255, √(gx² + gy²)) written
to a Uint8ClampedArray, i.e. min 255 of the rounded square root of
s = gx² + gy². -/
def clampByteSqrt (s : ℕ) : ℕ :=
  min 255 (roundSqrt s)

/-- Grayscale Reducer (convertToGrayscale): for each pixel p the luminance of
the RGBA bytes at flat offsets 4p, 4p+1, 4p+2. -/
def convertToGrayscale (data : ℕ → ℕ) : ℕ → ℕ :=
  fun p => grayValue (data (4 * p)) (data (4 * p + 1)) (data (4 * p + 2))

/-- Noise Smoother (applyGaussianBlur): 3×3 kernel [1,2,1,2,4,2,1,2,1] / 16
on every interior pixel (1 ≤ x < width−1, 1 ≤ y < height−1); border pixels
keep the Uint8ClampedArray default 0. -/
def applyGaussianBlur (g : ℕ → ℕ) (W H : ℕ) : ℕ → ℕ :=
  fun i =>
    let x := i % W
    let y := i / W
    if 1 ≤ x ∧ x + 1 < W ∧ 1 ≤ y ∧ y + 1 < H then
      halfEven16
        (g ((y-1)*W + (x-1)) + 2 * g ((y-1)*W + x) + g ((y-1)*W + (x+1)) +
         2 * g (y*W + (x-1)) + 4 * g (y*W + x) + 2 * g (y*W + (x+1)) +
         g ((y+1)*W + (x-1)) + 2 * g ((y+1)*W + x) + g ((y+1)*W + (x+1)))
    else 0

/-- Edge Extractor (applySobelEdgeDetection): Sobel kernels
Gx = [-1,0,1,-2,0,2,-1,0,1] and Gy = [-1,-2,-1,0,0,0,1,2,1] on interior
pixels, magnitude √(gx²+gy²) clamped to 255; border pixels default to 0. -/
def applySobelEdgeDetection (g : ℕ → ℕ) (W H : ℕ) : ℕ → ℕ :=
  fun i =>
    let x := i % W
    let y := i / W
    if 1 ≤ x ∧ x + 1 < W ∧ 1 ≤ y ∧ y + 1 < H then
      let gx : ℤ :=
        -(g ((y-1)*W + (x-1)) : ℤ) + (g ((y-1)*W + (x+1)) : ℤ) -
          2 * (g (y*W + (x-1)) : ℤ) + 2 * (g (y*W + (x+1)) : ℤ) -
          (g ((y+1)*W + (x-1)) : ℤ) + (g ((y+1)*W + (x+1)) : ℤ)
      let gy : ℤ :=
        -(g ((y-1)*W + (x-1)) : ℤ) - 2 * (g ((y-1)*W + x) : ℤ) -
          (g ((y-1)*W + (x+1)) : ℤ) + (g ((y+1)*W + (x-1)) : ℤ) +
          2 * (g ((y+1)*W + x) : ℤ) + (g ((y+1)*W + (x+1)) : ℤ)
      clampByteSqrt (gx * gx + gy * gy).toNat
    else 0

/-- Neighbor points pushed by traceContour, in the source's loop order
(dy = −1..1 outer, dx = −1..1 inner, skipping dx = dy = 0). -/
def neighborPts (p : Pt) : List Pt :=
  [⟨p.x - 1, p.y - 1⟩, ⟨p.x, p.y - 1⟩, ⟨p.x + 1, p.y - 1⟩,
   ⟨p.x - 1, p.y⟩, ⟨p.x + 1, p.y⟩,
   ⟨p.x - 1, p.y + 1⟩, ⟨p.x, p.y + 1⟩, ⟨p.x + 1, p.y + 1⟩]

/-- Stack loop of traceContour: pop a point; if it is out of bounds, already
visited or its edge value is at most the threshold, drop it; otherwise mark
it visited, append it to the contour and push its eight neighbors.  The
source's JavaScript array is pushed/popped at its end; the Lean list keeps
the stack top at its head, so the eight pushes of one iteration prepend the
reversed neighbor block. -/
def traceLoop (edgeData : ℕ → ℕ) (W H threshold : ℕ) :
    ℕ → List Pt → List Pt → (ℕ → Bool) → List Pt × (ℕ → Bool)
  | 0, _, contour, visited => (contour, visited)
  | _ + 1, [], contour, visited => (contour, visited)
  | fuel + 1, p :: stack, contour, visited =>
    if p.x < 0 ∨ (W : ℤ) ≤ p.x ∨ p.y < 0 ∨ (H : ℤ) ≤ p.y ∨
        visited (pixelIndex W p) = true ∨ edgeData (pixelIndex W p) ≤ threshold then
      traceLoop edgeData W H threshold fuel stack contour visited
    else
      traceLoop edgeData W H threshold fuel ((neighborPts p).reverse ++ stack)
        (contour ++ [p]) (Function.update visited (pixelIndex W p) true)

/-- Contour Tracer entry (traceContour): flood fill from a start point with
the shared visited map.  The fuel 9·W·H + 1 dominates the loop's iteration
count: every iteration pops one entry, and entries are pushed only once at
the start plus eight per newly visited pixel, of which there are at most
W·H. -/
def traceContour (edgeData : ℕ → ℕ) (W H : ℕ) (startX startY : ℤ)
    (threshold : ℕ) (visited : ℕ → Bool) : List Pt × (ℕ → Bool) :=
  traceLoop edgeData W H threshold (9 * (W * H) + 1) [⟨startX, startY⟩] [] visited

/-- One raster-scan step of findContours: at flat pixel n, when the edge
value exceeds the threshold 30 and the pixel is unvisited, trace a contour
from (n mod W, n div W) and keep it when it has more than 10 points. -/
def scanStep (edgeData : ℕ → ℕ) (W H : ℕ)
    (st : List (List Pt) × (ℕ → Bool)) (n : ℕ) : List (List Pt) × (ℕ → Bool) :=
  if 30 < edgeData n ∧ st.2 n = false then
    let t := traceContour edgeData W H (n % W : ℕ) (n / W : ℕ) 30 st.2
    if 10 < t.1.length then (st.1 ++ [t.1], t.2) else (st.1, t.2)
  else st

/-- Contour Tracer scan (findContours): raster scan in row-major order with
the fixed edge threshold 30; each bright unvisited pixel seeds a flood fill,
and only contours with more than 10 points are kept.  The visited map is
shared across all extractions of one call. -/
def findContours (edgeData : ℕ → ℕ) (W H : ℕ) : List (List Pt) :=
  ((List.range (H * W)).foldl (scanStep edgeData W H) ([], fun _ => false)).1

/-- Bounding box of a contour (getBoundingBox): running min/max over the
points.  The source starts from ±Infinity and is only ever applied to
nonempty contours; the embedding folds from the first point. -/
def getBoundingBox : List Pt → BBox
  | [] => ⟨0, 0, 0, 0⟩
  | p :: ps =>
    let minX := ps.foldl (fun m q => min m q.x) p.x
    let minY := ps.foldl (fun m q => min m q.y) p.y
    let maxX := ps.foldl (fun m q => max m q.x) p.x
    let maxY := ps.foldl (fun m q => max m q.y) p.y
    ⟨minX, minY, maxX - minX, maxY - minY⟩

/-- Candidate emitted by the Shape Classifier for an accepted contour
(fields of the tongue objects built in filterTongueShapes). -/
structure TongueShape where
  contour : List Pt
  bbox : BBox
  area : ℚ
  aspectRatio : ℚ
  centerX : ℚ
  centerY : ℚ
  confidence : ℚ
deriving DecidableEq

/-- Confidence score (calculateTongueConfidence): base 0.5, +0.3 for aspect
ratio in [2,4], +0.2 for area in (1000,50000), clamped to 1. -/
def calculateTongueConfidence (bbox : BBox) (area aspectRatio : ℚ) : ℚ :=
  let c1 : ℚ := 1 / 2
  let c2 : ℚ := if 2 ≤ aspectRatio ∧ aspectRatio ≤ 4 then c1 + 3 / 10 else c1
  let c3 : ℚ := if 1000 < area ∧ area < 50000 then c2 + 1 / 5 else c2
  min 1 c3

/-- Per-contour accept/reject decision of filterTongueShapes, with the
source's else-if rejection chain: area < 0.00014·W·H, area > 0.25·W·H,
aspect ratio outside [0.75, 8], box width < 0.01·W, box height < 0.01·H. -/
def classifyContour (W H : ℕ) (c : List Pt) : Option TongueShape :=
  let bbox := getBoundingBox c
  let area : ℚ := ((bbox.width * bbox.height : ℤ) : ℚ)
  let aspectRatio : ℚ := (bbox.width : ℚ) / (bbox.height : ℚ)
  if area < (W * H : ℕ) * (14 / 100000 : ℚ) then none
  else if (W * H : ℕ) * (1 / 4 : ℚ) < area then none
  else if aspectRatio < 3 / 4 then none
  else if 8 < aspectRatio then none
  else if (bbox.width : ℚ) < (W : ℚ) * (1 / 100) then none
  else if (bbox.height : ℚ) < (H : ℚ) * (1 / 100) then none
  else some
    { contour := c
      bbox := bbox
      area := area
      aspectRatio := aspectRatio
      centerX := (bbox.x : ℚ) + (bbox.width : ℚ) / 2
      centerY := (bbox.y : ℚ) + (bbox.height : ℚ) / 2
      confidence := calculateTongueConfidence bbox area aspectRatio }

/-- Overlap data of two bounding boxes (calculateDetailedOverlap):
intersection area and its ratio to the smaller box area; 0 for empty
intersections. -/
def calculateDetailedOverlap (bbox1 bbox2 : BBox) : ℚ × ℚ :=
  let x1 := max bbox1.x bbox2.x
  let y1 := max bbox1.y bbox2.y
  let x2 := min (bbox1.x + bbox1.width) (bbox2.x + bbox2.width)
  let y2 := min (bbox1.y + bbox1.height) (bbox2.y + bbox2.height)
  if x2 ≤ x1 ∨ y2 ≤ y1 then (0, 0)
  else
    let overlapArea : ℚ := (((x2 - x1) * (y2 - y1) : ℤ) : ℚ)
    let area1 : ℚ := ((bbox1.width * bbox1.height : ℤ) : ℚ)
    let area2 : ℚ := ((bbox2.width * bbox2.height : ℤ) : ℚ)
    (overlapArea, overlapArea / min area1 area2)

/-- Significant-overlap test (isOverlapping): overlap ratio strictly above
the 0.3 threshold. -/
def isOverlapping (bbox1 bbox2 : BBox) : Bool :=
  3 / 10 < (calculateDetailedOverlap bbox1 bbox2).2

/-- Greedy overlap suppression (removeOverlappingTongues): scan the tongues
in order, keeping one only if it does not significantly overlap any
already-kept tongue. -/
def removeOverlappingTongues (tongues : List TongueShape) : List TongueShape :=
  tongues.foldl
    (fun filtered t =>
      if filtered.any (fun e => isOverlapping t.bbox e.bbox) then filtered
      else filtered ++ [t])
    []

/-- Descending confidence order used by the source's sort comparator
(a, b) ↦ b.confidence − a.confidence. -/
def confDesc (a b : TongueShape) : Prop :=
  b.confidence ≤ a.confidence

instance : DecidableRel confDesc := fun a b => inferInstanceAs (Decidable (_ ≤ _))

/-- Shape Classifier plus Candidate Resolver (filterTongueShapes): classify
every contour, sort descending by confidence, remove overlaps, and truncate
to Math.max(expectedCount·1.5, expectedCount + 5) items (Array.slice
truncates the fractional bound toward zero). -/
def filterTongueShapes (contours : List (List Pt)) (W H expectedCount : ℕ) :
    List TongueShape :=
  let tongueShapes := contours.filterMap (classifyContour W H)
  let sorted := tongueShapes.insertionSort confDesc
  let filtered := removeOverlappingTongues sorted
  filtered.take (⌊max ((expectedCount : ℚ) * (3 / 2)) ((expectedCount : ℚ) + 5)⌋).toNat

/-- Full manual detection pipeline, composed in the spec's data-flow order:
Grayscale Reducer → Noise Smoother → Edge Extractor → Contour Tracer →
Shape Classifier → Candidate Resolver (the stage methods of the source,
wired as described in the spec's data flow). -/
def detect (data : ℕ → ℕ) (W H expectedCount : ℕ) : List TongueShape :=
  filterTongueShapes
    (findContours
      (applySobelEdgeDetection (applyGaussianBlur (convertToGrayscale data) W H) W H)
      W H)
    W H expectedCount

/-- Detection result record handed to the UI (the tongue-shape objects of
createFallbackTongueDetection and of the substituted OpenCV backend); the
JavaScript objects are duck-typed, so one record carries the union of the
fields, with isFallback false unless set. -/
structure DetectedTongue where
  x : ℝ
  y : ℝ
  width : ℚ
  height : ℚ
  area : ℚ
  confidence : ℚ
  aspectRatio : ℚ
  solidity : ℚ
  isFallback : Bool

/-- Fallback Generator (createFallbackTongueDetection): expectedCount
placeholder tongues of confidence 0.1 on a circle of radius
0.3·min(width, height) around the image center, each 40×60. -/
noncomputable def createFallbackTongueDetection (width height expectedCount : ℕ) :
    List DetectedTongue :=
  (List.range expectedCount).map fun (i : ℕ) =>
    let angle : ℝ := ((i : ℝ) / (expectedCount : ℝ)) * 2 * Real.pi
    let radius : ℝ := (min width height : ℕ) * (3 / 10)
    { x := (width : ℝ) / 2 + radius * Real.cos angle
      y := (height : ℝ) / 2 + radius * Real.sin angle
      width := 40
      height := 60
      area := 2400
      confidence := 1 / 10
      aspectRatio := 3 / 2
      solidity := 4 / 5
      isFallback := true }

/-- Descending confidence order of the backend-result sort comparator
(a, b) ↦ b.confidence − a.confidence. -/
def detConfDesc (a b : DetectedTongue) : Prop :=
  b.confidence ≤ a.confidence

instance : DecidableRel detConfDesc := fun a b => inferInstanceAs (Decidable (_ ≤ _))

/-- Result shaping (convertOpenCVResultsToTongueShapes): sort descending by
confidence, keep at most expectedCount + 5; if still more than expectedCount,
drop results below confidence 0.5 and truncate to expectedCount. -/
def convertOpenCVResultsToTongueShapes (openCVResults : List DetectedTongue)
    (expectedCount : ℕ) : List DetectedTongue :=
  let sortedResults := (openCVResults.insertionSort detConfDesc).take
    (min (expectedCount + 5) openCVResults.length)
  if expectedCount < sortedResults.length then
    (sortedResults.filter (fun shape => 1 / 2 ≤ shape.confidence)).take expectedCount
  else sortedResults

/-- External detection backend: receives the RGBA byte buffer and the image
dimensions, and either returns tongue candidates or throws (Except.error). -/
def Backend : Type :=
  List ℕ → ℕ → ℕ → Except Unit (List DetectedTongue)

/-- Detection entry point (detectDrumTongues): hand the image data to the
OpenCV backend, convert its results on success, and fall back to the
synthetic circular arrangement when the backend throws.  The source performs
no validation of the buffer shape. -/
noncomputable def detectDrumTongues (backend : Backend) (pixels : List ℕ)
    (width height expectedCount : ℕ) : List DetectedTongue :=
  match backend pixels width height with
  | Except.ok openCVResults => convertOpenCVResultsToTongueShapes openCVResults expectedCount
  | Except.error _ => createFallbackTongueDetection width height expectedCount

/-- Selection Sequencer state: the ordered selection (selectedTongues) plus
the per-overlay number labels written into the DOM (none for a cleared
label). -/
structure SelectionState where
  selectedTongues : List ℕ
  numbers : ℕ → Option ℕ

/-- Initial selection state: nothing selected, no labels. -/
def initialSelection : SelectionState :=
  { selectedTongues := [], numbers := fun _ => none }

/-- Selection transition (selectTongue): no-op when already selected,
otherwise append the index and label it with the new selection count. -/
def selectTongue (s : SelectionState) (i : ℕ) : SelectionState :=
  if i ∈ s.selectedTongues then s
  else
    { selectedTongues := s.selectedTongues ++ [i]
      numbers := Function.update s.numbers i (some (s.selectedTongues ++ [i]).length) }

/-- Deselection transition (deselectTongue): no-op when not selected,
otherwise splice the index out, clear its label, and renumber every
remaining selected index with its new 1-based position. -/
def deselectTongue (s : SelectionState) (i : ℕ) : SelectionState :=
  if i ∉ s.selectedTongues then s
  else
    let sel := s.selectedTongues.erase i
    { selectedTongues := sel
      numbers := sel.enum.foldl
        (fun m p => Function.update m p.2 (some (p.1 + 1)))
        (Function.update s.numbers i none) }

/-- Clearing transition (clearTongueSelection): empty the selection and
clear every label. -/
def clearTongueSelection (_ : SelectionState) : SelectionState :=
  { selectedTongues := [], numbers := fun _ => none }

/-- User actions driving the Selection Sequencer. -/
inductive SelOp where
  | select (i : ℕ)
  | deselect (i : ℕ)
  | clear
deriving DecidableEq

/-- Interpretation of a sequence of user actions from a given state. -/
def applySelOps (s : SelectionState) : List SelOp → SelectionState
  | [] => s
  | SelOp.select i :: ops => applySelOps (selectTongue s i) ops
  | SelOp.deselect i :: ops => applySelOps (deselectTongue s i) ops
  | SelOp.clear :: ops => applySelOps (clearTongueSelection s) ops
/-- Distance identity for a point placed on a circle by cosine and sine. -/
theorem circlePlacement (cx cy r a : ℝ) :
    (cx + r * Real.cos a - cx) ^ 2 + (cy + r * Real.sin a - cy) ^ 2 = r ^ 2 := by
  linear_combination (r ^ 2) * (Real.sin_sq_add_cos_sq a)

/-- Claim C7: for every width, height and expectedCount the Fallback
Generator returns exactly expectedCount candidates, each with
isFallback = true, confidence = 0.1 and a fixed 40×60 bounding box, candidate
i centered at angle (i/expectedCount)·2π on a circle of radius
0.3·min(width, height) around the image center (width/2, height/2); in
particular width = 600, height = 600, expectedCount = 8 yields exactly 8
such candidates on a circle of radius 180 around (300, 300). -/
theorem claim_C7 (width height expectedCount : ℕ) :
    (createFallbackTongueDetection width height expectedCount).length = expectedCount ∧
    (createFallbackTongueDetection width height expectedCount).map
        (fun t => t.isFallback) = List.replicate expectedCount true ∧
    (createFallbackTongueDetection width height expectedCount).map
        (fun t => t.confidence) = List.replicate expectedCount (1 / 10) ∧
    (createFallbackTongueDetection width height expectedCount).map
        (fun t => (t.width, t.height)) = List.replicate expectedCount ((40 : ℚ), (60 : ℚ)) ∧
    (createFallbackTongueDetection width height expectedCount).map
        (fun t => (t.x, t.y)) = (List.range expectedCount).map
        (fun (i : ℕ) =>
          ((width : ℝ) / 2 + ((min width height : ℕ) : ℝ) * (3 / 10) *
              Real.cos (((i : ℝ) / (expectedCount : ℝ)) * 2 * Real.pi),
            (height : ℝ) / 2 + ((min width height : ℕ) : ℝ) * (3 / 10) *
              Real.sin (((i : ℝ) / (expectedCount : ℝ)) * 2 * Real.pi))) ∧
    (createFallbackTongueDetection width height expectedCount).map
        (fun t => (t.x - (width : ℝ) / 2) ^ 2 + (t.y - (height : ℝ) / 2) ^ 2) =
      List.replicate expectedCount ((((min width height : ℕ) : ℝ) * (3 / 10)) ^ 2) ∧
    (createFallbackTongueDetection 600 600 8).length = 8 ∧
    (createFallbackTongueDetection 600 600 8).map
        (fun t => (t.x - 300) ^ 2 + (t.y - 300) ^ 2) = List.replicate 8 ((180 : ℝ) ^ 2) := by
  have hcirc : ∀ w h ec : ℕ,
      (createFallbackTongueDetection w h ec).map
        (fun t => (t.x - (w : ℝ) / 2) ^ 2 + (t.y - (h : ℝ) / 2) ^ 2) =
      List.replicate ec ((((min w h : ℕ) : ℝ) * (3 / 10)) ^ 2) := by
    intro w h ec
    rw [createFallbackTongueDetection, List.map_map]
    refine List.eq_replicate_iff.mpr ⟨by rw [List.length_map, List.length_range], ?_⟩
    intro b hb
    rw [List.mem_map] at hb
    obtain ⟨i, hi, hbi⟩ := hb
    rw [← hbi]
    exact circlePlacement ((w : ℝ) / 2) ((h : ℝ) / 2) _ _
  have hlen : ∀ w h ec : ℕ, (createFallbackTongueDetection w h ec).length = ec := by
    intro w h ec
    rw [createFallbackTongueDetection, List.length_map, List.length_range]
  refine ⟨hlen _ _ _, ?_, ?_, ?_, ?_, hcirc width height expectedCount, hlen 600 600 8, ?_⟩
  · rw [createFallbackTongueDetection, List.map_map]
    refine List.eq_replicate_iff.mpr ⟨by rw [List.length_map, List.length_range], ?_⟩
    intro b hb
    rw [List.mem_map] at hb
    obtain ⟨i, hi, hbi⟩ := hb
    exact hbi.symm
  · rw [createFallbackTongueDetection, List.map_map]
    refine List.eq_replicate_iff.mpr ⟨by rw [List.length_map, List.length_range], ?_⟩
    intro b hb
    rw [List.mem_map] at hb
    obtain ⟨i, hi, hbi⟩ := hb
    exact hbi.symm
  · rw [createFallbackTongueDetection, List.map_map]
    refine List.eq_replicate_iff.mpr ⟨by rw [List.length_map, List.length_range], ?_⟩
    intro b hb
    rw [List.mem_map] at hb
    obtain ⟨i, hi, hbi⟩ := hb
    exact hbi.symm
  · rw [createFallbackTongueDetection, List.map_map]
    rfl
  · have h := hcirc 600 600 8
    have hfun : (fun t : DetectedTongue => (t.x - 300) ^ 2 + (t.y - 300) ^ 2) =
        (fun t : DetectedTongue =>
          (t.x - ((600 : ℕ) : ℝ) / 2) ^ 2 + (t.y - ((600 : ℕ) : ℝ) / 2) ^ 2) := by
      funext t
      norm_num
    rw [hfun, h]
    norm_num

/-- Concrete backend that ignores its input and returns one fixed
high-confidence detection; used to exhibit that the entry point runs on a
malformed buffer. -/
def stubBackendOne : Backend := fun _ _ _ =>
  Except.ok [{ x := 0, y := 0, width := 10, height := 20, area := 200,
               confidence := 9 / 10, aspectRatio := 2, solidity := 1,
               isFallback := false }]

/-- Claim C1 counterexample: with a pixel buffer of length 0 ≠ 1·1·4, the
detection entry point does not stop: it proceeds and produces a (nonempty)
result, so no InputShapeError exists and shape validation is not performed.
The buffer [] with width = height = 1 violates the shape precondition, yet
detectDrumTongues returns the backend's converted detection. -/
theorem claim_C1_counterexample :
    (List.length ([] : List ℕ) ≠ 1 * 1 * 4) ∧
      (detectDrumTongues stubBackendOne [] 1 1 3).length = 1 := by
  constructor
  · decide
  · rfl

/-- Claim C1 amended: the detection entry point performs no input-shape
validation at all — its output is determined by the backend's verdict alone,
so any two buffers (well-shaped or not) on which the backend answers the
same produce identical results, and the pipeline always proceeds. -/
theorem claim_C1 (backend : Backend) (pixels pixels' : List ℕ)
    (width height expectedCount : ℕ)
    (hsame : backend pixels width height = backend pixels' width height) :
    detectDrumTongues backend pixels width height expectedCount =
      detectDrumTongues backend pixels' width height expectedCount := by
  rw [detectDrumTongues, detectDrumTongues, hsame]

/-- Witness for claim C1: instantiated at the stub backend with the empty
(malformed) and a well-shaped four-byte buffer. -/
theorem claim_C1_witness :
    stubBackendOne [] 1 1 = stubBackendOne [0, 0, 0, 255] 1 1 ∧
      detectDrumTongues stubBackendOne [] 1 1 3 =
        detectDrumTongues stubBackendOne [0, 0, 0, 255] 1 1 3 :=
  ⟨rfl, claim_C1 stubBackendOne [] [0, 0, 0, 255] 1 1 3 rfl⟩

/-- Concrete backend that always throws. -/
def stubBackendThrow : Backend := fun _ _ _ => Except.error ()

/-- Concrete backend that succeeds with an empty detection set. -/
def stubBackendEmpty : Backend := fun _ _ _ => Except.ok []

/-- Claim C6 counterexample: when the backend succeeds with an empty result
set, the entry point returns the empty set unchanged — the Fallback
Generator (which would give 8 candidates here) is not invoked, refuting
that fallback happens exactly when the pipeline throws or returns an empty
set. -/
theorem claim_C6_counterexample :
    detectDrumTongues stubBackendEmpty (List.replicate (600 * 600 * 4) 0) 600 600 8 = [] ∧
      (createFallbackTongueDetection 600 600 8).length = 8 := by
  constructor
  · rfl
  · rw [createFallbackTongueDetection, List.length_map, List.length_range]

/-- Claim C6 amended: backend exceptions are caught at the detect call
boundary and answered with the fallback arrangement (never propagated), and
the Fallback Generator is invoked exactly when the backend throws; a
successful call is passed through the result shaping, so a successful empty
result reaches the caller as an empty list, not as the fallback. -/
theorem claim_C6 (backend : Backend) (pixels : List ℕ) (width height expectedCount : ℕ) :
    (∀ e, backend pixels width height = Except.error e →
      detectDrumTongues backend pixels width height expectedCount =
        createFallbackTongueDetection width height expectedCount) ∧
    (∀ rs, backend pixels width height = Except.ok rs →
      detectDrumTongues backend pixels width height expectedCount =
        convertOpenCVResultsToTongueShapes rs expectedCount) ∧
    (backend pixels width height = Except.ok [] →
      detectDrumTongues backend pixels width height expectedCount = []) := by
  refine ⟨?_, ?_, ?_⟩
  · intro e he
    rw [detectDrumTongues, he]
  · intro rs hrs
    rw [detectDrumTongues, hrs]
  · intro hrs
    rw [detectDrumTongues, hrs]
    rfl

/-- Witness for claim C6: at the always-throwing backend the entry point
returns the fallback arrangement, and at the empty-success backend it
returns the empty list. -/
theorem claim_C6_witness :
    detectDrumTongues stubBackendThrow [] 600 600 8 =
        createFallbackTongueDetection 600 600 8 ∧
      detectDrumTongues stubBackendEmpty [] 600 600 8 = [] :=
  ⟨(claim_C6 stubBackendThrow [] 600 600 8).1 () rfl,
    (claim_C6 stubBackendEmpty [] 600 600 8).2.2 rfl⟩
/-- Last-write characterization of the renumbering loop of deselectTongue:
after the fold over the enumerated remaining selection, a selected index j is
labelled with its 1-based position, and other indices keep their base
label. -/
theorem renumber_foldl (l : List ℕ) :
    ∀ (k : ℕ) (base : ℕ → Option ℕ), l.Nodup →
      (∀ j ∈ l,
        ((l.enumFrom k).foldl
            (fun (m : ℕ → Option ℕ) (p : ℕ × ℕ) => Function.update m p.2 (some (p.1 + 1)))
            base) j =
          some (k + l.indexOf j + 1)) ∧
      (∀ j, j ∉ l →
        ((l.enumFrom k).foldl
            (fun (m : ℕ → Option ℕ) (p : ℕ × ℕ) => Function.update m p.2 (some (p.1 + 1)))
            base) j =
          base j) := by
  induction l with
  | nil => intro k base _; exact ⟨by simp, by simp⟩
  | cons a l ih =>
    intro k base hnd
    rw [List.nodup_cons] at hnd
    obtain ⟨ha, hnd⟩ := hnd
    rw [List.enumFrom_cons, List.foldl_cons]
    obtain ⟨ihmem, ihnot⟩ := ih (k + 1) (Function.update base a (some (k + 1))) hnd
    constructor
    · intro j hj
      rcases List.mem_cons.mp hj with hj | hj
      · subst hj
        rw [ihnot j ha, Function.update_same, List.indexOf_cons_self]
      · have hne : a ≠ j := fun hc => ha (hc ▸ hj)
        rw [ihmem j hj, List.indexOf_cons_ne _ hne]
        congr 2
        omega
    · intro j hj
      rw [ihnot j (fun hc => hj (List.mem_cons_of_mem _ hc)),
        Function.update_noteq (fun hc => hj (by rw [hc]; exact List.mem_cons_self a l))]

/-- Nodup preservation for every Selection Sequencer transition. -/
theorem applySelOps_nodup (ops : List SelOp) :
    ∀ s : SelectionState, s.selectedTongues.Nodup →
      (applySelOps s ops).selectedTongues.Nodup := by
  induction ops with
  | nil => intro s hs; exact hs
  | cons op ops ih =>
    intro s hs
    cases op with
    | select i =>
      refine ih _ ?_
      rw [selectTongue]
      by_cases h : i ∈ s.selectedTongues
      · rw [if_pos h]; exact hs
      · rw [if_neg h]
        simpa [List.nodup_append] using ⟨hs, fun hc => h hc⟩
    | deselect i =>
      refine ih _ ?_
      rw [deselectTongue]
      by_cases h : i ∉ s.selectedTongues
      · rw [if_pos h]; exact hs
      · rw [if_neg h]
        exact hs.erase i
    | clear =>
      refine ih _ ?_
      simp [clearTongueSelection]

/-- Claim C8: select(i) is a no-op when i is selected and otherwise appends
i; deselect(i) is a no-op when i is not selected and otherwise removes i and
renumbers every remaining selected index to its 1-based position (full
renumbering, no gaps); the ordered selection never contains a duplicate
(from the initial state under any action sequence), and select(a),
select(b), deselect(a) leaves exactly [b] with display order 1. -/
theorem claim_C8 (s : SelectionState) (i a b : ℕ) :
    (i ∈ s.selectedTongues → selectTongue s i = s) ∧
    (i ∉ s.selectedTongues →
      (selectTongue s i).selectedTongues = s.selectedTongues ++ [i]) ∧
    (i ∉ s.selectedTongues → deselectTongue s i = s) ∧
    (i ∈ s.selectedTongues →
      (deselectTongue s i).selectedTongues = s.selectedTongues.erase i) ∧
    (s.selectedTongues.Nodup → i ∈ s.selectedTongues →
      ∀ j ∈ (deselectTongue s i).selectedTongues,
        (deselectTongue s i).numbers j =
          some ((deselectTongue s i).selectedTongues.indexOf j + 1)) ∧
    (∀ ops : List SelOp, (applySelOps initialSelection ops).selectedTongues.Nodup) ∧
    (a ≠ b →
      (applySelOps initialSelection
          [SelOp.select a, SelOp.select b, SelOp.deselect a]).selectedTongues = [b] ∧
        (applySelOps initialSelection
          [SelOp.select a, SelOp.select b, SelOp.deselect a]).numbers b = some 1) := by
  refine ⟨?_, ?_, ?_, ?_, ?_, ?_, ?_⟩
  · intro h; rw [selectTongue, if_pos h]
  · intro h; rw [selectTongue, if_neg h]
  · intro h; rw [deselectTongue, if_pos h]
  · intro h; rw [deselectTongue, if_neg (by simpa using h)]
  · intro hnd hmem j hj
    rw [deselectTongue, if_neg (by simpa using hmem)] at hj ⊢
    simp only at hj ⊢
    have hnd' : (s.selectedTongues.erase i).Nodup := hnd.erase i
    have hres := (renumber_foldl (s.selectedTongues.erase i) 0
      (Function.update s.numbers i none) hnd').1 j hj
    rw [show (s.selectedTongues.erase i).enumFrom 0 = (s.selectedTongues.erase i).enum
      from rfl] at hres
    simpa using hres
  · exact fun ops => applySelOps_nodup ops initialSelection (by simp [initialSelection])
  · intro hab
    have h1 : selectTongue initialSelection a =
        (⟨[a], Function.update (fun _ => none) a (some 1)⟩ : SelectionState) := by
      rw [selectTongue, if_neg (by simp [initialSelection])]
      simp [initialSelection]
    have h2 : selectTongue
          (⟨[a], Function.update (fun _ => none) a (some 1)⟩ : SelectionState) b =
        (⟨[a, b], Function.update (Function.update (fun _ => none) a (some 1)) b
          (some 2)⟩ : SelectionState) := by
      rw [selectTongue, if_neg (by simp [hab.symm])]
      simp
    have h3 : (deselectTongue (⟨[a, b],
          Function.update (Function.update (fun _ => none) a (some 1)) b
            (some 2)⟩ : SelectionState) a).selectedTongues = [b] ∧
        (deselectTongue (⟨[a, b],
          Function.update (Function.update (fun _ => none) a (some 1)) b
            (some 2)⟩ : SelectionState) a).numbers b = some 1 := by
      rw [deselectTongue, if_neg (by simp)]
      refine ⟨by simp [List.erase_cons_head], ?_⟩
      simp only [List.erase_cons_head, List.enum, List.enumFrom, List.foldl_cons,
        List.foldl_nil]
      rw [Function.update_same]
    show (applySelOps _ _).selectedTongues = [b] ∧ (applySelOps _ _).numbers b = some 1
    rw [applySelOps, applySelOps, applySelOps, applySelOps, h1, h2]
    exact h3

/-- Witness for claim C8, exercising every transition at concrete states:
selection state [5] with no labels, deselection from [5, 7], and the
select(0), select(1), deselect(0) scenario. -/
theorem claim_C8_witness :
    selectTongue (⟨[5], fun _ => none⟩ : SelectionState) 5 =
        (⟨[5], fun _ => none⟩ : SelectionState) ∧
      (selectTongue (⟨[5], fun _ => none⟩ : SelectionState) 7).selectedTongues =
        [5] ++ [7] ∧
      deselectTongue (⟨[5], fun _ => none⟩ : SelectionState) 7 =
        (⟨[5], fun _ => none⟩ : SelectionState) ∧
      (deselectTongue (⟨[5, 7], fun _ => none⟩ : SelectionState) 5).selectedTongues =
        [5, 7].erase 5 ∧
      (deselectTongue (⟨[5, 7], fun _ => none⟩ : SelectionState) 5).numbers 7 =
        some ((deselectTongue (⟨[5, 7], fun _ => none⟩ : SelectionState) 5).selectedTongues.indexOf 7 + 1) ∧
      (applySelOps initialSelection
          [SelOp.select 0, SelOp.select 1, SelOp.deselect 0]).selectedTongues = [1] ∧
      (applySelOps initialSelection
          [SelOp.select 0, SelOp.select 1, SelOp.deselect 0]).numbers 1 = some 1 :=
  ⟨(claim_C8 (⟨[5], fun _ => none⟩ : SelectionState) 5 0 1).1 (by simp),
    (claim_C8 (⟨[5], fun _ => none⟩ : SelectionState) 7 0 1).2.1 (by simp),
    (claim_C8 (⟨[5], fun _ => none⟩ : SelectionState) 7 0 1).2.2.1 (by simp),
    (claim_C8 (⟨[5, 7], fun _ => none⟩ : SelectionState) 5 0 1).2.2.2.1 (by simp),
    (claim_C8 (⟨[5, 7], fun _ => none⟩ : SelectionState) 5 0 1).2.2.2.2.1 (by simp)
      (by simp) 7 (by simp [deselectTongue]),
    ((claim_C8 initialSelection 0 0 1).2.2.2.2.2.2 (by decide)).1,
    ((claim_C8 initialSelection 0 0 1).2.2.2.2.2.2 (by decide)).2⟩
/-- Fold of min over a list: the result is a lower bound and is attained. -/
theorem foldl_min_spec (ps : List ℤ) :
    ∀ a : ℤ, (ps.foldl min a = a ∨ ps.foldl min a ∈ ps) ∧
      ps.foldl min a ≤ a ∧ ∀ b ∈ ps, ps.foldl min a ≤ b := by
  induction ps with
  | nil => intro a; exact ⟨Or.inl rfl, le_refl a, by simp⟩
  | cons p ps ih =>
    intro a
    rw [List.foldl_cons]
    obtain ⟨hat, hle, hlb⟩ := ih (min a p)
    refine ⟨?_, ?_, ?_⟩
    · rcases hat with h | h
      · rcases min_choice a p with hm | hm
        · exact Or.inl (h.trans hm)
        · exact Or.inr (by rw [h, hm]; exact List.mem_cons_self p ps)
      · exact Or.inr (List.mem_cons_of_mem p h)
    · exact hle.trans (min_le_left a p)
    · intro b hb
      rcases List.mem_cons.mp hb with hb | hb
      · exact hb ▸ hle.trans (min_le_right a p)
      · exact hlb b hb

/-- Fold of max over a list: the result is an upper bound and is attained. -/
theorem foldl_max_spec (ps : List ℤ) :
    ∀ a : ℤ, (ps.foldl max a = a ∨ ps.foldl max a ∈ ps) ∧
      a ≤ ps.foldl max a ∧ ∀ b ∈ ps, b ≤ ps.foldl max a := by
  induction ps with
  | nil => intro a; exact ⟨Or.inl rfl, le_refl a, by simp⟩
  | cons p ps ih =>
    intro a
    rw [List.foldl_cons]
    obtain ⟨hat, hle, hub⟩ := ih (max a p)
    refine ⟨?_, ?_, ?_⟩
    · rcases hat with h | h
      · rcases max_choice a p with hm | hm
        · exact Or.inl (h.trans hm)
        · exact Or.inr (by rw [h, hm]; exact List.mem_cons_self p ps)
      · exact Or.inr (List.mem_cons_of_mem p h)
    · exact (le_max_left a p).trans hle
    · intro b hb
      rcases List.mem_cons.mp hb with hb | hb
      · exact hb ▸ (le_max_right a p).trans hle
      · exact hub b hb

/-- Claim C10: for a nonempty contour, getBoundingBox returns x and y equal
to the minimum point coordinates and width/height equal to max − min of the
coordinates (so x + width and y + height are the maxima); consequently the
box spans one less than the number of pixel columns/rows, and a contour
whose points share a single x (or y) has width (or height) exactly 0. -/
theorem claim_C10 (c : List Pt) (hne : c ≠ []) :
    ((∀ p ∈ c, (getBoundingBox c).x ≤ p.x) ∧ (∃ p ∈ c, p.x = (getBoundingBox c).x)) ∧
    ((∀ p ∈ c, (getBoundingBox c).y ≤ p.y) ∧ (∃ p ∈ c, p.y = (getBoundingBox c).y)) ∧
    ((∀ p ∈ c, p.x ≤ (getBoundingBox c).x + (getBoundingBox c).width) ∧
      (∃ p ∈ c, p.x = (getBoundingBox c).x + (getBoundingBox c).width)) ∧
    ((∀ p ∈ c, p.y ≤ (getBoundingBox c).y + (getBoundingBox c).height) ∧
      (∃ p ∈ c, p.y = (getBoundingBox c).y + (getBoundingBox c).height)) ∧
    ((∀ p ∈ c, ∀ q ∈ c, p.x = q.x) → (getBoundingBox c).width = 0) ∧
    ((∀ p ∈ c, ∀ q ∈ c, p.y = q.y) → (getBoundingBox c).height = 0) := by
  match c, hne with
  | p :: ps, _ =>
    rw [getBoundingBox]
    simp only
    have hminx := foldl_min_spec (ps.map Pt.x) p.x
    have hminy := foldl_min_spec (ps.map Pt.y) p.y
    have hmaxx := foldl_max_spec (ps.map Pt.x) p.x
    have hmaxy := foldl_max_spec (ps.map Pt.y) p.y
    rw [List.foldl_map] at hminx hminy hmaxx hmaxy
    obtain ⟨hxat, hxle, hxlb⟩ := hminx
    obtain ⟨hyat, hyle, hylb⟩ := hminy
    obtain ⟨hXat, hXle, hXub⟩ := hmaxx
    obtain ⟨hYat, hYle, hYub⟩ := hmaxy
    set mx := ps.foldl (fun m q => min m q.x) p.x with hmx
    set my := ps.foldl (fun m q => min m q.y) p.y with hmy
    set Mx := ps.foldl (fun m q => max m q.x) p.x with hMx
    set My := ps.foldl (fun m q => max m q.y) p.y with hMy
    have hsumx : mx + (Mx - mx) = Mx := by ring
    have hsumy : my + (My - my) = My := by ring
    have lbx : ∀ q ∈ p :: ps, mx ≤ q.x := by
      intro q hq
      rcases List.mem_cons.mp hq with h | h
      · exact h ▸ hxle
      · exact hxlb q.x (List.mem_map_of_mem Pt.x h)
    have lby : ∀ q ∈ p :: ps, my ≤ q.y := by
      intro q hq
      rcases List.mem_cons.mp hq with h | h
      · exact h ▸ hyle
      · exact hylb q.y (List.mem_map_of_mem Pt.y h)
    have ubx : ∀ q ∈ p :: ps, q.x ≤ Mx := by
      intro q hq
      rcases List.mem_cons.mp hq with h | h
      · exact h ▸ hXle
      · exact hXub q.x (List.mem_map_of_mem Pt.x h)
    have uby : ∀ q ∈ p :: ps, q.y ≤ My := by
      intro q hq
      rcases List.mem_cons.mp hq with h | h
      · exact h ▸ hYle
      · exact hYub q.y (List.mem_map_of_mem Pt.y h)
    have atx : ∃ q ∈ p :: ps, q.x = mx := by
      rcases hxat with h | h
      · exact ⟨p, List.mem_cons_self p ps, h.symm⟩
      · obtain ⟨q, hq, hqx⟩ := List.mem_map.mp h
        exact ⟨q, List.mem_cons_of_mem p hq, hqx⟩
    have aty : ∃ q ∈ p :: ps, q.y = my := by
      rcases hyat with h | h
      · exact ⟨p, List.mem_cons_self p ps, h.symm⟩
      · obtain ⟨q, hq, hqy⟩ := List.mem_map.mp h
        exact ⟨q, List.mem_cons_of_mem p hq, hqy⟩
    have atX : ∃ q ∈ p :: ps, q.x = Mx := by
      rcases hXat with h | h
      · exact ⟨p, List.mem_cons_self p ps, h.symm⟩
      · obtain ⟨q, hq, hqx⟩ := List.mem_map.mp h
        exact ⟨q, List.mem_cons_of_mem p hq, hqx⟩
    have atY : ∃ q ∈ p :: ps, q.y = My := by
      rcases hYat with h | h
      · exact ⟨p, List.mem_cons_self p ps, h.symm⟩
      · obtain ⟨q, hq, hqy⟩ := List.mem_map.mp h
        exact ⟨q, List.mem_cons_of_mem p hq, hqy⟩
    refine ⟨⟨lbx, atx⟩, ⟨lby, aty⟩, ⟨by rw [hsumx]; exact ubx, by rw [hsumx]; exact atX⟩,
      ⟨by rw [hsumy]; exact uby, by rw [hsumy]; exact atY⟩, ?_, ?_⟩
    · intro hall
      obtain ⟨q1, hq1, he1⟩ := atx
      obtain ⟨q2, hq2, he2⟩ := atX
      have := hall q1 hq1 q2 hq2
      omega
    · intro hall
      obtain ⟨q1, hq1, he1⟩ := aty
      obtain ⟨q2, hq2, he2⟩ := atY
      have := hall q1 hq1 q2 hq2
      omega

/-- Witness for claim C10 at the two-point contour [(3,5), (3,9)], whose box
is x = 3, y = 5, width = 0, height = 4. -/
theorem claim_C10_witness :
    ([(⟨3, 5⟩ : Pt), ⟨3, 9⟩] ≠ []) ∧
      ((∀ p ∈ [(⟨3, 5⟩ : Pt), ⟨3, 9⟩], (getBoundingBox [(⟨3, 5⟩ : Pt), ⟨3, 9⟩]).x ≤ p.x) ∧
        (∃ p ∈ [(⟨3, 5⟩ : Pt), ⟨3, 9⟩], p.x = (getBoundingBox [(⟨3, 5⟩ : Pt), ⟨3, 9⟩]).x)) ∧
      ((∀ p ∈ [(⟨3, 5⟩ : Pt), ⟨3, 9⟩], (getBoundingBox [(⟨3, 5⟩ : Pt), ⟨3, 9⟩]).y ≤ p.y) ∧
        (∃ p ∈ [(⟨3, 5⟩ : Pt), ⟨3, 9⟩], p.y = (getBoundingBox [(⟨3, 5⟩ : Pt), ⟨3, 9⟩]).y)) ∧
      ((∀ p ∈ [(⟨3, 5⟩ : Pt), ⟨3, 9⟩],
          p.x ≤ (getBoundingBox [(⟨3, 5⟩ : Pt), ⟨3, 9⟩]).x +
            (getBoundingBox [(⟨3, 5⟩ : Pt), ⟨3, 9⟩]).width) ∧
        (∃ p ∈ [(⟨3, 5⟩ : Pt), ⟨3, 9⟩],
          p.x = (getBoundingBox [(⟨3, 5⟩ : Pt), ⟨3, 9⟩]).x +
            (getBoundingBox [(⟨3, 5⟩ : Pt), ⟨3, 9⟩]).width)) ∧
      ((∀ p ∈ [(⟨3, 5⟩ : Pt), ⟨3, 9⟩],
          p.y ≤ (getBoundingBox [(⟨3, 5⟩ : Pt), ⟨3, 9⟩]).y +
            (getBoundingBox [(⟨3, 5⟩ : Pt), ⟨3, 9⟩]).height) ∧
        (∃ p ∈ [(⟨3, 5⟩ : Pt), ⟨3, 9⟩],
          p.y = (getBoundingBox [(⟨3, 5⟩ : Pt), ⟨3, 9⟩]).y +
            (getBoundingBox [(⟨3, 5⟩ : Pt), ⟨3, 9⟩]).height)) ∧
      ((∀ p ∈ [(⟨3, 5⟩ : Pt), ⟨3, 9⟩], ∀ q ∈ [(⟨3, 5⟩ : Pt), ⟨3, 9⟩], p.x = q.x) →
        (getBoundingBox [(⟨3, 5⟩ : Pt), ⟨3, 9⟩]).width = 0) ∧
      ((∀ p ∈ [(⟨3, 5⟩ : Pt), ⟨3, 9⟩], ∀ q ∈ [(⟨3, 5⟩ : Pt), ⟨3, 9⟩], p.y = q.y) →
        (getBoundingBox [(⟨3, 5⟩ : Pt), ⟨3, 9⟩]).height = 0) :=
  ⟨by decide, claim_C10 [(⟨3, 5⟩ : Pt), ⟨3, 9⟩] (by decide)⟩
/-- Full characterization of the Shape Classifier decision: a candidate is
emitted exactly when every acceptance condition holds, and then the
candidate is the record built by filterTongueShapes. -/
theorem classifyContour_some_iff (W H : ℕ) (c : List Pt) (t : TongueShape) :
    classifyContour W H c = some t ↔
      ((W * H : ℕ) * (14 / 100000 : ℚ) ≤
          (((getBoundingBox c).width * (getBoundingBox c).height : ℤ) : ℚ) ∧
        (((getBoundingBox c).width * (getBoundingBox c).height : ℤ) : ℚ) ≤
          (W * H : ℕ) * (1 / 4 : ℚ) ∧
        3 / 4 ≤ ((getBoundingBox c).width : ℚ) / ((getBoundingBox c).height : ℚ) ∧
        ((getBoundingBox c).width : ℚ) / ((getBoundingBox c).height : ℚ) ≤ 8 ∧
        (W : ℚ) * (1 / 100) ≤ ((getBoundingBox c).width : ℚ) ∧
        (H : ℚ) * (1 / 100) ≤ ((getBoundingBox c).height : ℚ) ∧
        t = { contour := c
              bbox := getBoundingBox c
              area := (((getBoundingBox c).width * (getBoundingBox c).height : ℤ) : ℚ)
              aspectRatio := ((getBoundingBox c).width : ℚ) / ((getBoundingBox c).height : ℚ)
              centerX := ((getBoundingBox c).x : ℚ) + ((getBoundingBox c).width : ℚ) / 2
              centerY := ((getBoundingBox c).y : ℚ) + ((getBoundingBox c).height : ℚ) / 2
              confidence := calculateTongueConfidence (getBoundingBox c)
                (((getBoundingBox c).width * (getBoundingBox c).height : ℤ) : ℚ)
                (((getBoundingBox c).width : ℚ) / ((getBoundingBox c).height : ℚ)) }) := by
  simp only [classifyContour]
  split_ifs with h1 h2 h3 h4 h5 h6
  · constructor
    · intro h; exact absurd h (by simp)
    · rintro ⟨ha, -⟩; exact absurd h1 (not_lt.mpr ha)
  · constructor
    · intro h; exact absurd h (by simp)
    · rintro ⟨-, ha, -⟩; exact absurd h2 (not_lt.mpr ha)
  · constructor
    · intro h; exact absurd h (by simp)
    · rintro ⟨-, -, ha, -⟩; exact absurd h3 (not_lt.mpr ha)
  · constructor
    · intro h; exact absurd h (by simp)
    · rintro ⟨-, -, -, ha, -⟩; exact absurd h4 (not_lt.mpr ha)
  · constructor
    · intro h; exact absurd h (by simp)
    · rintro ⟨-, -, -, -, ha, -⟩; exact absurd h5 (not_lt.mpr ha)
  · constructor
    · intro h; exact absurd h (by simp)
    · rintro ⟨-, -, -, -, -, ha, -⟩; exact absurd h6 (not_lt.mpr ha)
  · push_neg at h1 h2 h3 h4 h5 h6
    constructor
    · intro h
      refine ⟨h1, h2, h3, h4, h5, h6, ?_⟩
      exact (Option.some_injective _ h).symm
    · rintro ⟨-, -, -, -, -, -, ht⟩
      rw [ht]

/-- Closed form of the confidence score. -/
theorem calculateTongueConfidence_eq (bbox : BBox) (area aspectRatio : ℚ) :
    calculateTongueConfidence bbox area aspectRatio =
      min 1 (1 / 2 + (if 2 ≤ aspectRatio ∧ aspectRatio ≤ 4 then (3 : ℚ) / 10 else 0) +
        (if 1000 < area ∧ area < 50000 then (1 : ℚ) / 5 else 0)) := by
  rw [calculateTongueConfidence]
  split_ifs with h1 h2 h2 <;> norm_num

/-- Claim C4: the Shape Classifier emits a candidate for a contour iff the
bounding-box area lies in [0.00014·W·H, 0.25·W·H], the aspect ratio lies in
[0.75, 8], and the box is at least 0.01·W wide and 0.01·H tall; the emitted
confidence is min(1, 0.5 + 0.3·[2 ≤ ar ≤ 4] + 0.2·[1000 < area < 50000]). -/
theorem claim_C4 (W H : ℕ) (hW : 1 ≤ W) (hH : 1 ≤ H) (c : List Pt) :
    ((classifyContour W H c).isSome ↔
      ((W * H : ℕ) * (14 / 100000 : ℚ) ≤
          (((getBoundingBox c).width * (getBoundingBox c).height : ℤ) : ℚ) ∧
        (((getBoundingBox c).width * (getBoundingBox c).height : ℤ) : ℚ) ≤
          (W * H : ℕ) * (1 / 4 : ℚ) ∧
        3 / 4 ≤ ((getBoundingBox c).width : ℚ) / ((getBoundingBox c).height : ℚ) ∧
        ((getBoundingBox c).width : ℚ) / ((getBoundingBox c).height : ℚ) ≤ 8 ∧
        (W : ℚ) * (1 / 100) ≤ ((getBoundingBox c).width : ℚ) ∧
        (H : ℚ) * (1 / 100) ≤ ((getBoundingBox c).height : ℚ))) ∧
    (∀ t, classifyContour W H c = some t →
      t.confidence =
        min 1 (1 / 2 +
          (if 2 ≤ ((getBoundingBox c).width : ℚ) / ((getBoundingBox c).height : ℚ) ∧
              ((getBoundingBox c).width : ℚ) / ((getBoundingBox c).height : ℚ) ≤ 4
            then (3 : ℚ) / 10 else 0) +
          (if 1000 < (((getBoundingBox c).width * (getBoundingBox c).height : ℤ) : ℚ) ∧
              (((getBoundingBox c).width * (getBoundingBox c).height : ℤ) : ℚ) < 50000
            then (1 : ℚ) / 5 else 0))) := by
  constructor
  · constructor
    · intro h
      obtain ⟨t, ht⟩ := Option.isSome_iff_exists.mp h
      obtain ⟨h1, h2, h3, h4, h5, h6, -⟩ := (classifyContour_some_iff W H c t).mp ht
      exact ⟨h1, h2, h3, h4, h5, h6⟩
    · rintro ⟨h1, h2, h3, h4, h5, h6⟩
      rw [(classifyContour_some_iff W H c _).mpr ⟨h1, h2, h3, h4, h5, h6, rfl⟩]
      rfl
  · intro t ht
    obtain ⟨-, -, -, -, -, -, he⟩ := (classifyContour_some_iff W H c t).mp ht
    rw [he]
    exact calculateTongueConfidence_eq (getBoundingBox c)
      (((getBoundingBox c).width * (getBoundingBox c).height : ℤ) : ℚ)
      (((getBoundingBox c).width : ℚ) / ((getBoundingBox c).height : ℚ))

/-- Witness for claim C4 at a 100×100 image and the rectangle contour with
corners (10, 10) and (29, 19): box 19×9, area 171, aspect ratio 19/9. -/
theorem claim_C4_witness :
    (1 ≤ 100) ∧
      (((classifyContour 100 100 [(⟨10, 10⟩ : Pt), ⟨29, 19⟩]).isSome ↔
        ((100 * 100 : ℕ) * (14 / 100000 : ℚ) ≤
            (((getBoundingBox [(⟨10, 10⟩ : Pt), ⟨29, 19⟩]).width *
              (getBoundingBox [(⟨10, 10⟩ : Pt), ⟨29, 19⟩]).height : ℤ) : ℚ) ∧
          (((getBoundingBox [(⟨10, 10⟩ : Pt), ⟨29, 19⟩]).width *
              (getBoundingBox [(⟨10, 10⟩ : Pt), ⟨29, 19⟩]).height : ℤ) : ℚ) ≤
            (100 * 100 : ℕ) * (1 / 4 : ℚ) ∧
          3 / 4 ≤ ((getBoundingBox [(⟨10, 10⟩ : Pt), ⟨29, 19⟩]).width : ℚ) /
              ((getBoundingBox [(⟨10, 10⟩ : Pt), ⟨29, 19⟩]).height : ℚ) ∧
          ((getBoundingBox [(⟨10, 10⟩ : Pt), ⟨29, 19⟩]).width : ℚ) /
              ((getBoundingBox [(⟨10, 10⟩ : Pt), ⟨29, 19⟩]).height : ℚ) ≤ 8 ∧
          (100 : ℚ) * (1 / 100) ≤ ((getBoundingBox [(⟨10, 10⟩ : Pt), ⟨29, 19⟩]).width : ℚ) ∧
          (100 : ℚ) * (1 / 100) ≤ ((getBoundingBox [(⟨10, 10⟩ : Pt), ⟨29, 19⟩]).height : ℚ))) ∧
      (∀ t, classifyContour 100 100 [(⟨10, 10⟩ : Pt), ⟨29, 19⟩] = some t →
        t.confidence =
          min 1 (1 / 2 +
            (if 2 ≤ ((getBoundingBox [(⟨10, 10⟩ : Pt), ⟨29, 19⟩]).width : ℚ) /
                ((getBoundingBox [(⟨10, 10⟩ : Pt), ⟨29, 19⟩]).height : ℚ) ∧
                ((getBoundingBox [(⟨10, 10⟩ : Pt), ⟨29, 19⟩]).width : ℚ) /
                ((getBoundingBox [(⟨10, 10⟩ : Pt), ⟨29, 19⟩]).height : ℚ) ≤ 4
              then (3 : ℚ) / 10 else 0) +
            (if 1000 < (((getBoundingBox [(⟨10, 10⟩ : Pt), ⟨29, 19⟩]).width *
                (getBoundingBox [(⟨10, 10⟩ : Pt), ⟨29, 19⟩]).height : ℤ) : ℚ) ∧
                (((getBoundingBox [(⟨10, 10⟩ : Pt), ⟨29, 19⟩]).width *
                (getBoundingBox [(⟨10, 10⟩ : Pt), ⟨29, 19⟩]).height : ℤ) : ℚ) < 50000
              then (1 : ℚ) / 5 else 0)))) :=
  ⟨by decide, claim_C4 100 100 (by decide) (by decide) [(⟨10, 10⟩ : Pt), ⟨29, 19⟩]⟩
/-- The overlap ratio of calculateDetailedOverlap is symmetric in its two
boxes. -/
theorem calculateDetailedOverlap_comm (b1 b2 : BBox) :
    calculateDetailedOverlap b1 b2 = calculateDetailedOverlap b2 b1 := by
  rw [calculateDetailedOverlap, calculateDetailedOverlap]
  rw [max_comm b2.x b1.x, max_comm b2.y b1.y,
    min_comm (b2.x + b2.width) (b1.x + b1.width),
    min_comm (b2.y + b2.height) (b1.y + b1.height)]
  simp only [min_comm (((b2.width * b2.height : ℤ) : ℚ)) (((b1.width * b1.height : ℤ) : ℚ))]

/-- Elements already accumulated by removeOverlappingTongues stay pairwise
within the 0.3 overlap bound as the scan proceeds. -/
theorem removeOverlappingTongues_aux (tongues : List TongueShape) :
    ∀ acc : List TongueShape,
      acc.Pairwise (fun a b => (calculateDetailedOverlap a.bbox b.bbox).2 ≤ 3 / 10 ∧
        (calculateDetailedOverlap b.bbox a.bbox).2 ≤ 3 / 10) →
      (tongues.foldl
        (fun filtered t =>
          if filtered.any (fun e => isOverlapping t.bbox e.bbox) then filtered
          else filtered ++ [t]) acc).Pairwise
        (fun a b => (calculateDetailedOverlap a.bbox b.bbox).2 ≤ 3 / 10 ∧
          (calculateDetailedOverlap b.bbox a.bbox).2 ≤ 3 / 10) := by
  induction tongues with
  | nil => intro acc hacc; exact hacc
  | cons t ts ih =>
    intro acc hacc
    rw [List.foldl_cons]
    by_cases hany : acc.any (fun e => isOverlapping t.bbox e.bbox)
    · rw [if_pos hany]
      exact ih acc hacc
    · rw [if_neg hany]
      refine ih (acc ++ [t]) ?_
      rw [List.pairwise_append]
      refine ⟨hacc, List.pairwise_singleton _ _, ?_⟩
      intro a ha b hb
      rw [List.mem_singleton] at hb
      subst hb
      have hfalse : isOverlapping b.bbox a.bbox = false := by
        rcases Bool.eq_false_or_eq_true (isOverlapping b.bbox a.bbox) with h | h
        · exact absurd (List.any_eq_true.mpr ⟨a, ha, h⟩) hany
        · exact h
      have hle : (calculateDetailedOverlap b.bbox a.bbox).2 ≤ 3 / 10 := by
        rw [isOverlapping] at hfalse
        simpa using of_decide_eq_false hfalse
      exact ⟨by rw [calculateDetailedOverlap_comm]; exact hle, hle⟩

/-- Claim C2: any two candidates in the output of the greedy overlap
suppression have overlap ratio (intersection area over the smaller box area)
at most 0.30, in both orientations. -/
theorem claim_C2 (tongues : List TongueShape) :
    (removeOverlappingTongues tongues).Pairwise
      (fun a b => (calculateDetailedOverlap a.bbox b.bbox).2 ≤ 3 / 10 ∧
        (calculateDetailedOverlap b.bbox a.bbox).2 ≤ 3 / 10) :=
  removeOverlappingTongues_aux tongues [] List.Pairwise.nil
instance : IsTotal TongueShape confDesc :=
  ⟨fun a b => le_total b.confidence a.confidence⟩

instance : IsTrans TongueShape confDesc :=
  ⟨fun _ _ _ hab hbc => le_trans hbc hab⟩

/-- The greedy overlap suppression only drops elements: its output is a
sublist of its input. -/
theorem removeOverlappingTongues_sublist_aux (ts : List TongueShape) :
    ∀ acc : List TongueShape,
      ∃ s, ts.foldl
        (fun filtered t =>
          if filtered.any (fun e => isOverlapping t.bbox e.bbox) then filtered
          else filtered ++ [t]) acc = acc ++ s ∧ s.Sublist ts := by
  induction ts with
  | nil => intro acc; exact ⟨[], by simp, List.Sublist.refl []⟩
  | cons t ts ih =>
    intro acc
    rw [List.foldl_cons]
    by_cases hany : acc.any (fun e => isOverlapping t.bbox e.bbox)
    · rw [if_pos hany]
      obtain ⟨s, hs, hsub⟩ := ih acc
      exact ⟨s, hs, hsub.cons t⟩
    · rw [if_neg hany]
      obtain ⟨s, hs, hsub⟩ := ih (acc ++ [t])
      exact ⟨t :: s, by rw [hs, List.append_assoc]; rfl, hsub.cons₂ t⟩

/-- Sublist form of the previous lemma. -/
theorem removeOverlappingTongues_sublist (ts : List TongueShape) :
    (removeOverlappingTongues ts).Sublist ts := by
  obtain ⟨s, hs, hsub⟩ := removeOverlappingTongues_sublist_aux ts []
  rw [removeOverlappingTongues, hs]
  simpa using hsub

/-- The confidence score always lies in the unit interval. -/
theorem calculateTongueConfidence_unit (b : BBox) (a r : ℚ) :
    0 ≤ calculateTongueConfidence b a r ∧ calculateTongueConfidence b a r ≤ 1 := by
  rw [calculateTongueConfidence]
  split_ifs <;> exact ⟨le_min (by norm_num) (by norm_num), min_le_left _ _⟩

/-- Count bound, descending order, confidence range and positive box extents
for the output of the Shape Classifier plus Candidate Resolver, for any
contour list. -/
theorem filterTongueShapes_props (contours : List (List Pt)) (W H ec : ℕ)
    (hW : 1 ≤ W) (hH : 1 ≤ H) :
    (filterTongueShapes contours W H ec).length ≤
      (⌊max ((ec : ℚ) * (3 / 2)) ((ec : ℚ) + 5)⌋).toNat ∧
    (filterTongueShapes contours W H ec).Sorted confDesc ∧
    ∀ t ∈ filterTongueShapes contours W H ec,
      0 ≤ t.confidence ∧ t.confidence ≤ 1 ∧ 0 < t.bbox.width ∧ 0 < t.bbox.height := by
  have hunfold : filterTongueShapes contours W H ec =
      (removeOverlappingTongues
        ((contours.filterMap (classifyContour W H)).insertionSort confDesc)).take
        (⌊max ((ec : ℚ) * (3 / 2)) ((ec : ℚ) + 5)⌋).toNat := by
    rw [filterTongueShapes]
  rw [hunfold]
  refine ⟨List.length_take_le _ _, ?_, ?_⟩
  · have hsorted : ((contours.filterMap (classifyContour W H)).insertionSort
        confDesc).Sorted confDesc :=
      List.sorted_insertionSort confDesc _
    have h1 : (removeOverlappingTongues
        ((contours.filterMap (classifyContour W H)).insertionSort confDesc)).Sorted
        confDesc :=
      List.Pairwise.sublist (removeOverlappingTongues_sublist _) hsorted
    exact List.Pairwise.sublist (List.take_sublist _ _) h1
  · intro t ht
    have h1 : t ∈ removeOverlappingTongues
        ((contours.filterMap (classifyContour W H)).insertionSort confDesc) :=
      (List.take_sublist _ _).mem ht
    have h2 : t ∈ (contours.filterMap (classifyContour W H)).insertionSort confDesc :=
      (removeOverlappingTongues_sublist _).mem h1
    have h3 : t ∈ contours.filterMap (classifyContour W H) :=
      (List.perm_insertionSort confDesc _).mem_iff.mp h2
    obtain ⟨c, -, hc⟩ := List.mem_filterMap.mp h3
    obtain ⟨-, -, -, -, h5, h6, he⟩ := (classifyContour_some_iff W H c t).mp hc
    have hconf := calculateTongueConfidence_unit (getBoundingBox c)
      (((getBoundingBox c).width * (getBoundingBox c).height : ℤ) : ℚ)
      (((getBoundingBox c).width : ℚ) / ((getBoundingBox c).height : ℚ))
    have hWq : (1 : ℚ) ≤ (W : ℚ) := by exact_mod_cast hW
    have hHq : (1 : ℚ) ≤ (H : ℚ) := by exact_mod_cast hH
    have hwpos : (0 : ℚ) < ((getBoundingBox c).width : ℚ) := by linarith
    have hhpos : (0 : ℚ) < ((getBoundingBox c).height : ℚ) := by linarith
    refine ⟨?_, ?_, ?_, ?_⟩
    · rw [he]; exact hconf.1
    · rw [he]; exact hconf.2
    · rw [he]; exact_mod_cast hwpos
    · rw [he]; exact_mod_cast hhpos

/-- Claim C3: for every pixel buffer and positive dimensions and
expectedCount, detect returns at most ⌊max(expectedCount·1.5,
expectedCount + 5)⌋ candidates, sorted descending by confidence, and every
returned candidate has confidence in [0, 1] and a bounding box of strictly
positive width and height. -/
theorem claim_C3 (data : ℕ → ℕ) (W H expectedCount : ℕ)
    (hW : 1 ≤ W) (hH : 1 ≤ H) (hec : 1 ≤ expectedCount) :
    (detect data W H expectedCount).length ≤
      (⌊max ((expectedCount : ℚ) * (3 / 2)) ((expectedCount : ℚ) + 5)⌋).toNat ∧
    (detect data W H expectedCount).Sorted confDesc ∧
    ∀ t ∈ detect data W H expectedCount,
      0 ≤ t.confidence ∧ t.confidence ≤ 1 ∧ 0 < t.bbox.width ∧ 0 < t.bbox.height := by
  rw [detect]
  exact filterTongueShapes_props _ W H expectedCount hW hH

/-- Witness for claim C3 at the all-black 1×1 image with expectedCount 1. -/
theorem claim_C3_witness :
    (1 ≤ 1) ∧
      ((detect (fun _ => 0) 1 1 1).length ≤
        (⌊max ((1 : ℚ) * (3 / 2)) ((1 : ℚ) + 5)⌋).toNat ∧
      (detect (fun _ => 0) 1 1 1).Sorted confDesc ∧
      ∀ t ∈ detect (fun _ => 0) 1 1 1,
        0 ≤ t.confidence ∧ t.confidence ≤ 1 ∧ 0 < t.bbox.width ∧ 0 < t.bbox.height) :=
  ⟨le_refl 1, claim_C3 (fun _ => 0) 1 1 1 (le_refl 1) (le_refl 1) (le_refl 1)⟩
/-- In-bounds predicate of the flood fill's bounds check. -/
def inBoundsPt (W H : ℕ) (p : Pt) : Prop :=
  0 ≤ p.x ∧ p.x < (W : ℤ) ∧ 0 ≤ p.y ∧ p.y < (H : ℤ)

/-- A pixel the tracer may mark: in bounds with edge value above the
threshold. -/
def brightPt (edgeData : ℕ → ℕ) (W H threshold : ℕ) (p : Pt) : Prop :=
  inBoundsPt W H p ∧ threshold < edgeData (pixelIndex W p)

/-- Soundness contract of the flood-fill loop relative to the contour and
visited map at entry: every produced point is marked, bright and freshly
visited, the visited map only grows, and exactly by the produced points; the
entry contour is a prefix of the output. -/
def TraceOut (edgeData : ℕ → ℕ) (W H threshold : ℕ) (contour : List Pt)
    (visited : ℕ → Bool) (r : List Pt × (ℕ → Bool)) : Prop :=
  (∀ p ∈ r.1, r.2 (pixelIndex W p) = true) ∧
  (r.1.map (pixelIndex W)).Nodup ∧
  (∀ p ∈ r.1, brightPt edgeData W H threshold p) ∧
  (∀ i, visited i = true → r.2 i = true) ∧
  (∀ p ∈ r.1, p ∈ contour ∨ visited (pixelIndex W p) = false) ∧
  (∀ i, r.2 i = true → visited i = true ∨ ∃ p ∈ r.1, pixelIndex W p = i) ∧
  (∃ added, r.1 = contour ++ added)

theorem traceLoop_sound (edgeData : ℕ → ℕ) (W H threshold : ℕ) :
    ∀ (fuel : ℕ) (stack contour : List Pt) (visited : ℕ → Bool),
      (∀ p ∈ contour, visited (pixelIndex W p) = true) →
      (contour.map (pixelIndex W)).Nodup →
      (∀ p ∈ contour, brightPt edgeData W H threshold p) →
      TraceOut edgeData W H threshold contour visited
        (traceLoop edgeData W H threshold fuel stack contour visited) := by
  intro fuel
  induction fuel with
  | zero =>
    intro stack contour visited h1 h2 h3
    rw [traceLoop]
    exact ⟨h1, h2, h3, fun i hi => hi, fun p hp => Or.inl hp,
      fun i hi => Or.inl hi, [], by simp⟩
  | succ fuel ih =>
    intro stack contour visited h1 h2 h3
    cases stack with
    | nil =>
      rw [traceLoop]
      exact ⟨h1, h2, h3, fun i hi => hi, fun p hp => Or.inl hp,
        fun i hi => Or.inl hi, [], by simp⟩
    | cons p stack =>
      rw [traceLoop]
      by_cases hcond : p.x < 0 ∨ (W : ℤ) ≤ p.x ∨ p.y < 0 ∨ (H : ℤ) ≤ p.y ∨
          visited (pixelIndex W p) = true ∨ edgeData (pixelIndex W p) ≤ threshold
      · rw [if_pos hcond]
        exact ih stack contour visited h1 h2 h3
      · rw [if_neg hcond]
        push_neg at hcond
        obtain ⟨hx0, hxW, hy0, hyH, hvis, hedge⟩ := hcond
        have hvisF : visited (pixelIndex W p) = false := by
          simpa using hvis
        have hbright : brightPt edgeData W H threshold p :=
          ⟨⟨hx0, hxW, hy0, hyH⟩, hedge⟩
        have h1' : ∀ q ∈ contour ++ [p],
            Function.update visited (pixelIndex W p) true (pixelIndex W q) = true := by
          intro q hq
          rcases List.mem_append.mp hq with hq | hq
          · rw [Function.update_apply]
            split_ifs with he
            · rfl
            · exact h1 q hq
          · rw [List.mem_singleton] at hq
            subst hq
            rw [Function.update_same]
        have hfresh : pixelIndex W p ∉ contour.map (pixelIndex W) := by
          intro hc
          obtain ⟨q, hq, hqe⟩ := List.mem_map.mp hc
          rw [← hqe] at hvisF
          rw [h1 q hq] at hvisF
          simp at hvisF
        have h2' : ((contour ++ [p]).map (pixelIndex W)).Nodup := by
          rw [List.map_append]
          refine List.Nodup.append h2 (List.nodup_singleton _) ?_
          intro a ha hb
          rw [List.map_singleton, List.mem_singleton] at hb
          subst hb
          exact hfresh ha
        have h3' : ∀ q ∈ contour ++ [p], brightPt edgeData W H threshold q := by
          intro q hq
          rcases List.mem_append.mp hq with hq | hq
          · exact h3 q hq
          · rw [List.mem_singleton] at hq
            subst hq
            exact hbright
        obtain ⟨g1, g2, g3, g4, g5, g6, added, hadded⟩ :=
          ih ((neighborPts p).reverse ++ stack) (contour ++ [p])
            (Function.update visited (pixelIndex W p) true) h1' h2' h3'
        have hpmem : p ∈ (traceLoop edgeData W H threshold fuel
            ((neighborPts p).reverse ++ stack) (contour ++ [p])
            (Function.update visited (pixelIndex W p) true)).1 := by
          rw [hadded]
          exact List.mem_append.mpr (Or.inl (List.mem_append.mpr (Or.inr
            (List.mem_singleton.mpr rfl))))
        refine ⟨g1, g2, g3, ?_, ?_, ?_, ?_⟩
        · intro i hi
          refine g4 i ?_
          rw [Function.update_apply]
          split_ifs with he
          · rfl
          · exact hi
        · intro q hq
          rcases g5 q hq with hg | hg
          · rcases List.mem_append.mp hg with hg | hg
            · exact Or.inl hg
            · rw [List.mem_singleton] at hg
              subst hg
              exact Or.inr hvisF
          · rw [Function.update_apply] at hg
            split_ifs at hg with he
            exact Or.inr hg
        · intro i hi
          rcases g6 i hi with hg | hg
          · rw [Function.update_apply] at hg
            split_ifs at hg with he
            · exact Or.inr ⟨p, hpmem, he.symm⟩
            · exact Or.inl hg
          · exact Or.inr hg
        · refine ⟨[p] ++ added, ?_⟩
          rw [hadded, List.append_assoc]
/-- Invariant of the findContours raster scan: every stored contour consists
of visited, bright, in-bounds points with pairwise distinct indices, has
more than 10 points, and the stored contours are pairwise disjoint. -/
def ScanInv (edgeData : ℕ → ℕ) (W H : ℕ) (st : List (List Pt) × (ℕ → Bool)) : Prop :=
  (∀ c ∈ st.1, ∀ p ∈ c, st.2 (pixelIndex W p) = true) ∧
  (∀ c ∈ st.1, (c.map (pixelIndex W)).Nodup) ∧
  (∀ c ∈ st.1, ∀ p ∈ c, brightPt edgeData W H 30 p) ∧
  (∀ c ∈ st.1, 10 < c.length) ∧
  st.1.Pairwise (fun c d => ∀ p ∈ c, p ∉ d)

theorem scanStep_inv (edgeData : ℕ → ℕ) (W H : ℕ)
    (st : List (List Pt) × (ℕ → Bool)) (n : ℕ) (h : ScanInv edgeData W H st) :
    ScanInv edgeData W H (scanStep edgeData W H st n) := by
  obtain ⟨i1, i2, i3, i4, i5⟩ := h
  rw [scanStep]
  by_cases hcond : 30 < edgeData n ∧ st.2 n = false
  · rw [if_pos hcond]
    obtain ⟨g1, g2, g3, g4, g5, g6, added, hadded⟩ :=
      traceLoop_sound edgeData W H 30 (9 * (W * H) + 1)
        [⟨(n % W : ℕ), (n / W : ℕ)⟩] [] st.2 (by simp) (by simp) (by simp)
    simp only
    by_cases hlen : 10 < (traceContour edgeData W H (n % W : ℕ) (n / W : ℕ) 30 st.2).1.length
    · rw [if_pos hlen]
      have hdisj : ∀ c ∈ st.1, ∀ p ∈ c,
          p ∉ (traceContour edgeData W H (n % W : ℕ) (n / W : ℕ) 30 st.2).1 := by
        intro c hc p hp hpr
        rcases g5 p hpr with hg | hg
        · exact absurd hg (List.not_mem_nil p)
        · rw [i1 c hc p hp] at hg
          simp at hg
      refine ⟨?_, ?_, ?_, ?_, ?_⟩
      · intro c hc p hp
        rcases List.mem_append.mp hc with hc | hc
        · exact g4 _ (i1 c hc p hp)
        · rw [List.mem_singleton] at hc
          subst hc
          exact g1 p hp
      · intro c hc
        rcases List.mem_append.mp hc with hc | hc
        · exact i2 c hc
        · rw [List.mem_singleton] at hc
          subst hc
          exact g2
      · intro c hc p hp
        rcases List.mem_append.mp hc with hc | hc
        · exact i3 c hc p hp
        · rw [List.mem_singleton] at hc
          subst hc
          exact g3 p hp
      · intro c hc
        rcases List.mem_append.mp hc with hc | hc
        · exact i4 c hc
        · rw [List.mem_singleton] at hc
          subst hc
          exact hlen
      · rw [List.pairwise_append]
        refine ⟨i5, List.pairwise_singleton _ _, ?_⟩
        intro c hc d hd
        rw [List.mem_singleton] at hd
        subst hd
        exact hdisj c hc
    · rw [if_neg hlen]
      refine ⟨?_, i2, i3, i4, i5⟩
      intro c hc p hp
      exact g4 _ (i1 c hc p hp)
  · rw [if_neg hcond]
    exact ⟨i1, i2, i3, i4, i5⟩

theorem scanFold_inv (edgeData : ℕ → ℕ) (W H : ℕ) (ns : List ℕ) :
    ∀ st, ScanInv edgeData W H st →
      ScanInv edgeData W H (ns.foldl (scanStep edgeData W H) st) := by
  induction ns with
  | nil => intro st h; exact h
  | cons n ns ih =>
    intro st h
    rw [List.foldl_cons]
    exact ih _ (scanStep_inv edgeData W H st n h)

/-- Claim C9: the contours returned by findContours are pairwise disjoint
sets of in-bounds points with no duplicate point inside any single contour,
every point has edge value strictly greater than the threshold 30, and every
returned contour has strictly more than 10 points. -/
theorem claim_C9 (edgeData : ℕ → ℕ) (W H : ℕ) :
    (∀ c ∈ findContours edgeData W H, 10 < c.length) ∧
    (∀ c ∈ findContours edgeData W H, ∀ p ∈ c,
      (0 ≤ p.x ∧ p.x < (W : ℤ) ∧ 0 ≤ p.y ∧ p.y < (H : ℤ)) ∧
        30 < edgeData (pixelIndex W p)) ∧
    (∀ c ∈ findContours edgeData W H, c.Nodup) ∧
    (findContours edgeData W H).Pairwise (fun c d => ∀ p ∈ c, p ∉ d) := by
  have hinv : ScanInv edgeData W H
      ((List.range (H * W)).foldl (scanStep edgeData W H) ([], fun _ => false)) :=
    scanFold_inv edgeData W H (List.range (H * W)) ([], fun _ => false)
      ⟨by simp, by simp, by simp, by simp, List.Pairwise.nil⟩
  obtain ⟨i1, i2, i3, i4, i5⟩ := hinv
  rw [findContours]
  refine ⟨i4, ?_, ?_, i5⟩
  · intro c hc p hp
    obtain ⟨⟨hb1, hb2, hb3, hb4⟩, hbe⟩ := i3 c hc p hp
    exact ⟨⟨hb1, hb2, hb3, hb4⟩, hbe⟩
  · intro c hc
    exact (i2 c hc).of_map
/-- A point inside the image has flat index below W·H. -/
theorem pixelIndex_lt (W H : ℕ) (p : Pt) (h : inBoundsPt W H p) :
    pixelIndex W p < W * H := by
  obtain ⟨hx0, hxW, hy0, hyH⟩ := h
  have hyW : p.y * (W : ℤ) ≤ ((H : ℤ) - 1) * W := by
    apply mul_le_mul_of_nonneg_right (by omega) (by positivity)
  have key : p.y * (W : ℤ) + p.x < ((W * H : ℕ) : ℤ) := by
    push_cast
    nlinarith
  have hz0 : 0 ≤ p.y * (W : ℤ) + p.x :=
    add_nonneg (mul_nonneg hy0 (by positivity)) hx0
  rw [pixelIndex]
  generalize hz : p.y * (W : ℤ) + p.x = z at key hz0
  omega

/-- Decoding the flat index of an in-bounds point recovers its
coordinates. -/
theorem pixelIndex_decode (W H : ℕ) (p : Pt) (h : inBoundsPt W H p) :
    ((pixelIndex W p % W : ℕ) : ℤ) = p.x ∧ ((pixelIndex W p / W : ℕ) : ℤ) = p.y := by
  obtain ⟨hx0, hxW, hy0, hyH⟩ := h
  have hax : p.x = (p.x.toNat : ℤ) := (Int.toNat_of_nonneg hx0).symm
  have hby : p.y = (p.y.toNat : ℤ) := (Int.toNat_of_nonneg hy0).symm
  have haW : p.x.toNat < W := by omega
  have hW0 : 0 < W := by omega
  have hidx : pixelIndex W p = W * p.y.toNat + p.x.toNat := by
    rw [pixelIndex, hax, hby]
    rw [show (p.y.toNat : ℤ) * W + p.x.toNat = ((W * p.y.toNat + p.x.toNat : ℕ) : ℤ) by
      push_cast; ring]
    exact Int.toNat_natCast _
  constructor
  · rw [hidx, Nat.mul_add_mod, Nat.mod_eq_of_lt haW, ← hax]
  · rw [hidx, Nat.mul_add_div hW0, Nat.div_eq_of_lt haW, Nat.add_zero, ← hby]

/-- Decoding a flat index below W·H yields an in-bounds point with that
index. -/
theorem decode_pixelIndex (W H : ℕ) (n : ℕ) (hn : n < W * H) :
    inBoundsPt W H (⟨(n % W : ℕ), (n / W : ℕ)⟩ : Pt) ∧
      pixelIndex W (⟨(n % W : ℕ), (n / W : ℕ)⟩ : Pt) = n := by
  have hW0 : 0 < W := by
    rcases Nat.eq_zero_or_pos W with h | h
    · subst h; omega
    · exact h
  have hmod : n % W < W := Nat.mod_lt n hW0
  have hdiv : n / W < H := Nat.div_lt_of_lt_mul (by omega)
  constructor
  · refine ⟨?_, ?_, ?_, ?_⟩
    · show (0 : ℤ) ≤ ((n % W : ℕ) : ℤ)
      positivity
    · show ((n % W : ℕ) : ℤ) < (W : ℤ)
      exact_mod_cast hmod
    · show (0 : ℤ) ≤ ((n / W : ℕ) : ℤ)
      positivity
    · show ((n / W : ℕ) : ℤ) < (H : ℤ)
      exact_mod_cast hdiv
  · rw [pixelIndex]
    simp only
    rw [show ((n / W : ℕ) : ℤ) * W + ((n % W : ℕ) : ℤ) = ((W * (n / W) + n % W : ℕ) : ℤ) by
      push_cast; ring]
    rw [Int.toNat_natCast, Nat.div_add_mod]
/-- Number of unvisited in-range pixels; the termination measure of the
flood fill. -/
def unvisCount (W H : ℕ) (v : ℕ → Bool) : ℕ :=
  ((List.range (W * H)).filter (fun i => v i = false)).length

/-- Marking a fresh in-range pixel lowers the unvisited count by one. -/
theorem filter_update_length (v : ℕ → Bool) (i : ℕ) :
    ∀ l : List ℕ, l.Nodup → i ∈ l → v i = false →
      (l.filter (fun j => Function.update v i true j = false)).length + 1 =
        (l.filter (fun j => v j = false)).length := by
  intro l
  induction l with
  | nil => intro _ hi; exact absurd hi (List.not_mem_nil i)
  | cons a l ih =>
    intro hnd hi hv
    rw [List.nodup_cons] at hnd
    obtain ⟨hal, hnd⟩ := hnd
    rcases List.mem_cons.mp hi with hia | hil
    · subst hia
      have hfa : (l.filter (fun j => Function.update v i true j = false)) =
          l.filter (fun j => v j = false) := by
        apply List.filter_congr
        intro j hj
        have hji : j ≠ i := fun hc => hal (hc ▸ hj)
        simp [Function.update_noteq hji]
      rw [List.filter_cons, List.filter_cons]
      rw [if_neg (by simp [Function.update_same]), if_pos (by simp [hv])]
      rw [List.length_cons, hfa]
    · have hai : a ≠ i := fun hc => hal (hc ▸ hil)
      rw [List.filter_cons, List.filter_cons]
      have hsame : decide (Function.update v i true a = false) = decide (v a = false) := by
        rw [Function.update_noteq hai]
      rw [hsame]
      by_cases hva : v a = false
      · rw [if_pos (by simp only [decide_eq_true_eq]; exact hva),
          if_pos (by simp only [decide_eq_true_eq]; exact hva)]
        rw [List.length_cons, List.length_cons]
        have := ih hnd hil hv
        omega
      · rw [if_neg (by simp only [decide_eq_true_eq]; exact hva),
          if_neg (by simp only [decide_eq_true_eq]; exact hva)]
        exact ih hnd hil hv

/-- Measure form of the previous lemma. -/
theorem unvisCount_update (W H : ℕ) (v : ℕ → Bool) (i : ℕ)
    (hi : i < W * H) (hv : v i = false) :
    unvisCount W H (Function.update v i true) + 1 = unvisCount W H v :=
  filter_update_length v i (List.range (W * H)) (List.nodup_range _)
    (List.mem_range.mpr hi) hv

/-- The flood fill only adds marks to the visited map. -/
theorem traceLoop_visited_mono (edgeData : ℕ → ℕ) (W H threshold : ℕ) :
    ∀ (fuel : ℕ) (stack contour : List Pt) (visited : ℕ → Bool) (i : ℕ),
      visited i = true →
      (traceLoop edgeData W H threshold fuel stack contour visited).2 i = true := by
  intro fuel
  induction fuel with
  | zero => intro stack contour visited i hi; rw [traceLoop]; exact hi
  | succ fuel ih =>
    intro stack contour visited i hi
    cases stack with
    | nil => rw [traceLoop]; exact hi
    | cons p stack =>
      rw [traceLoop]
      by_cases hcond : p.x < 0 ∨ (W : ℤ) ≤ p.x ∨ p.y < 0 ∨ (H : ℤ) ≤ p.y ∨
          visited (pixelIndex W p) = true ∨ edgeData (pixelIndex W p) ≤ threshold
      · rw [if_pos hcond]
        exact ih stack contour visited i hi
      · rw [if_neg hcond]
        refine ih _ _ _ i ?_
        rw [Function.update_apply]
        split_ifs with he
        · rfl
        · exact hi
/-- A neighbor is settled for a visited map: out of bounds, already marked,
or below threshold. -/
def NeighborDone (edgeData : ℕ → ℕ) (W H threshold : ℕ) (v : ℕ → Bool) (q : Pt) : Prop :=
  ¬ inBoundsPt W H q ∨ v (pixelIndex W q) = true ∨ edgeData (pixelIndex W q) ≤ threshold

theorem NeighborDone_mono (edgeData : ℕ → ℕ) (W H threshold : ℕ)
    (v v' : ℕ → Bool) (q : Pt) (hmono : ∀ i, v i = true → v' i = true)
    (h : NeighborDone edgeData W H threshold v q) :
    NeighborDone edgeData W H threshold v' q := by
  rcases h with h | h | h
  · exact Or.inl h
  · exact Or.inr (Or.inl (hmono _ h))
  · exact Or.inr (Or.inr h)

/-- Completeness of the flood-fill loop: given enough fuel (the stack size
plus nine per unvisited pixel), the loop drains, every neighbor of every
produced point is settled in the final visited map, and so is every entry of
the initial stack. -/
theorem traceLoop_complete (edgeData : ℕ → ℕ) (W H threshold : ℕ) :
    ∀ (fuel : ℕ) (stack contour : List Pt) (visited : ℕ → Bool),
      stack.length + 9 * unvisCount W H visited ≤ fuel →
      (∀ p ∈ contour, ∀ q ∈ neighborPts p,
        q ∈ stack ∨ NeighborDone edgeData W H threshold visited q) →
      (∀ p ∈ (traceLoop edgeData W H threshold fuel stack contour visited).1,
        ∀ q ∈ neighborPts p,
          NeighborDone edgeData W H threshold
            (traceLoop edgeData W H threshold fuel stack contour visited).2 q) ∧
      (∀ q ∈ stack,
        NeighborDone edgeData W H threshold
          (traceLoop edgeData W H threshold fuel stack contour visited).2 q) := by
  intro fuel
  induction fuel with
  | zero =>
    intro stack contour visited hfuel hinv
    have hstack : stack = [] := by
      cases stack with
      | nil => rfl
      | cons p stack => simp at hfuel
    subst hstack
    rw [traceLoop]
    refine ⟨?_, by simp⟩
    intro p hp q hq
    rcases hinv p hp q hq with h | h
    · exact absurd h (List.not_mem_nil q)
    · exact h
  | succ fuel ih =>
    intro stack contour visited hfuel hinv
    cases stack with
    | nil =>
      rw [traceLoop]
      refine ⟨?_, by simp⟩
      intro p hp q hq
      rcases hinv p hp q hq with h | h
      · exact absurd h (List.not_mem_nil q)
      · exact h
    | cons p stack =>
      rw [traceLoop]
      by_cases hcond : p.x < 0 ∨ (W : ℤ) ≤ p.x ∨ p.y < 0 ∨ (H : ℤ) ≤ p.y ∨
          visited (pixelIndex W p) = true ∨ edgeData (pixelIndex W p) ≤ threshold
      · rw [if_pos hcond]
        have hdone : NeighborDone edgeData W H threshold visited p := by
          rcases hcond with h | h | h | h | h | h
          · exact Or.inl (fun hb => absurd hb.1 (not_le.mpr h))
          · exact Or.inl (fun hb => absurd hb.2.1 (not_lt.mpr h))
          · exact Or.inl (fun hb => absurd hb.2.2.1 (not_le.mpr h))
          · exact Or.inl (fun hb => absurd hb.2.2.2 (not_lt.mpr h))
          · exact Or.inr (Or.inl h)
          · exact Or.inr (Or.inr h)
        have hinv' : ∀ p' ∈ contour, ∀ q ∈ neighborPts p',
            q ∈ stack ∨ NeighborDone edgeData W H threshold visited q := by
          intro p' hp' q hq
          rcases hinv p' hp' q hq with h | h
          · rcases List.mem_cons.mp h with h | h
            · exact Or.inr (h ▸ hdone)
            · exact Or.inl h
          · exact Or.inr h
        have hfuel2 : stack.length + 9 * unvisCount W H visited ≤ fuel := by
          rw [List.length_cons] at hfuel
          omega
        obtain ⟨g1, g2⟩ := ih stack contour visited hfuel2 hinv'
        refine ⟨g1, ?_⟩
        intro q hq
        rcases List.mem_cons.mp hq with h | h
        · refine h ▸ NeighborDone_mono _ _ _ _ _ _ p ?_ hdone
          intro i hi
          exact traceLoop_visited_mono edgeData W H threshold fuel stack contour visited i hi
        · exact g2 q h
      · rw [if_neg hcond]
        push_neg at hcond
        obtain ⟨hx0, hxW, hy0, hyH, hvis, hedge⟩ := hcond
        have hvisF : visited (pixelIndex W p) = false := by simpa using hvis
        have hb : inBoundsPt W H p := ⟨hx0, hxW, hy0, hyH⟩
        have hplt : pixelIndex W p < W * H := pixelIndex_lt W H p hb
        have hcnt := unvisCount_update W H visited (pixelIndex W p) hplt hvisF
        have hfuel' : ((neighborPts p).reverse ++ stack).length +
            9 * unvisCount W H (Function.update visited (pixelIndex W p) true) ≤ fuel := by
          rw [List.length_append, List.length_reverse]
          have h8 : (neighborPts p).length = 8 := by rw [neighborPts]; rfl
          rw [h8]
          rw [List.length_cons] at hfuel
          omega
        have hinv' : ∀ p' ∈ contour ++ [p], ∀ q ∈ neighborPts p',
            q ∈ (neighborPts p).reverse ++ stack ∨
              NeighborDone edgeData W H threshold
                (Function.update visited (pixelIndex W p) true) q := by
          intro p' hp' q hq
          rcases List.mem_append.mp hp' with hp' | hp'
          · rcases hinv p' hp' q hq with h | h
            · rcases List.mem_cons.mp h with h | h
              · refine Or.inr (Or.inr (Or.inl ?_))
                rw [h, Function.update_same]
              · exact Or.inl (List.mem_append.mpr (Or.inr h))
            · refine Or.inr (NeighborDone_mono _ _ _ _ _ _ q ?_ h)
              intro i hi
              rw [Function.update_apply]
              split_ifs with he
              · rfl
              · exact hi
          · rw [List.mem_singleton] at hp'
            subst hp'
            exact Or.inl (List.mem_append.mpr (Or.inl (List.mem_reverse.mpr hq)))
        obtain ⟨g1, g2⟩ := ih ((neighborPts p).reverse ++ stack) (contour ++ [p])
          (Function.update visited (pixelIndex W p) true) hfuel' hinv'
        refine ⟨g1, ?_⟩
        intro q hq
        rcases List.mem_cons.mp hq with h | h
        · subst h
          refine Or.inr (Or.inl ?_)
          refine traceLoop_visited_mono edgeData W H threshold fuel _ _ _ _ ?_
          rw [Function.update_same]
        · exact g2 q (List.mem_append.mpr (Or.inr h))
/-- Scan steps that cannot fire leave the state unchanged. -/
theorem scanFold_skip (edgeData : ℕ → ℕ) (W H : ℕ) (ns : List ℕ) :
    ∀ st : List (List Pt) × (ℕ → Bool),
      (∀ n ∈ ns, ¬(30 < edgeData n ∧ st.2 n = false)) →
      ns.foldl (scanStep edgeData W H) st = st := by
  induction ns with
  | nil => intro st _; rfl
  | cons n ns ih =>
    intro st h
    rw [List.foldl_cons, scanStep, if_neg (h n (List.mem_cons_self n ns))]
    exact ih st (fun m hm => h m (List.mem_cons_of_mem n hm))

/-- When the whole bright set is one 8-connected component reachable from
its least element and has more than 10 pixels, findContours returns exactly
one contour, whose flat indices are a permutation of the bright set. -/
theorem findContours_single_component (edgeData : ℕ → ℕ) (W H n₀ : ℕ) (SL : List ℕ)
    (hnd : SL.Nodup)
    (hmem : ∀ n, n ∈ SL ↔ n < W * H ∧ 30 < edgeData n)
    (hn0 : n₀ ∈ SL)
    (hmin : ∀ m ∈ SL, n₀ ≤ m)
    (hconn : ∀ n ∈ SL, n = n₀ ∨ ∃ m ∈ SL, m < n ∧
      (⟨(n % W : ℕ), (n / W : ℕ)⟩ : Pt) ∈ neighborPts ⟨(m % W : ℕ), (m / W : ℕ)⟩)
    (hlen : 10 < SL.length) :
    ∃ c, findContours edgeData W H = [c] ∧ (c.map (pixelIndex W)).Perm SL ∧
      (∀ p ∈ c, inBoundsPt W H p ∧ 30 < edgeData (pixelIndex W p)) := by
  obtain ⟨hn0lt, hn0edge⟩ := (hmem n₀).mp hn0
  obtain ⟨hp0in, hp0idx⟩ := decode_pixelIndex W H n₀ hn0lt
  obtain ⟨g1, g2, g3, g4, g5, g6, added, hadded⟩ :=
    traceLoop_sound edgeData W H 30 (9 * (W * H) + 1)
      [⟨(n₀ % W : ℕ), (n₀ / W : ℕ)⟩] [] (fun _ => false) (by simp) (by simp) (by simp)
  have hunvis : unvisCount W H (fun _ => false) = W * H := by
    rw [unvisCount]
    rw [List.filter_eq_self.mpr (fun a _ => by simp)]
    exact List.length_range _
  obtain ⟨G1, G2⟩ := traceLoop_complete edgeData W H 30 (9 * (W * H) + 1)
    [⟨(n₀ % W : ℕ), (n₀ / W : ℕ)⟩] [] (fun _ => false)
    (by rw [hunvis]; simp only [List.length_singleton]; omega) (by simp)
  set r := traceLoop edgeData W H 30 (9 * (W * H) + 1)
    [⟨(n₀ % W : ℕ), (n₀ / W : ℕ)⟩] [] (fun _ => false) with hr
  have hmarked : ∀ i, r.2 i = true ↔ ∃ p ∈ r.1, pixelIndex W p = i := by
    intro i
    constructor
    · intro hi
      rcases g6 i hi with h | h
      · simp at h
      · exact h
    · rintro ⟨p, hp, hpi⟩
      rw [← hpi]
      exact g1 p hp
  have hsub : ∀ p ∈ r.1, pixelIndex W p ∈ SL := by
    intro p hp
    obtain ⟨hb, he⟩ := g3 p hp
    exact (hmem _).mpr ⟨pixelIndex_lt W H p hb, he⟩
  have habsorb : ∀ n, n ∈ SL → ∃ p ∈ r.1, pixelIndex W p = n := by
    intro n
    induction n using Nat.strong_induction_on with
    | _ n ihn =>
      intro hn
      rcases hconn n hn with heq | ⟨m, hm, hmlt, hadj⟩
      · subst heq
        rcases G2 _ (List.mem_singleton.mpr rfl) with h | h | h
        · exact absurd hp0in h
        · exact (hmarked _).mp (by rw [hp0idx] at h; exact h)
        · rw [hp0idx] at h
          omega
      · obtain ⟨pm, hpm, hpmi⟩ := ihn m hmlt hm
        obtain ⟨hmlt', hmedge⟩ := (hmem m).mp hm
        obtain ⟨hbm, hem⟩ := g3 pm hpm
        obtain ⟨hdx, hdy⟩ := pixelIndex_decode W H pm hbm
        have hpm_eq : pm = (⟨(m % W : ℕ), (m / W : ℕ)⟩ : Pt) := by
          rcases pm with ⟨px, py⟩
          rw [hpmi] at hdx hdy
          rw [Pt.mk.injEq]
          exact ⟨hdx.symm, hdy.symm⟩
        obtain ⟨hnlt, hnedge⟩ := (hmem n).mp hn
        obtain ⟨hqin, hqidx⟩ := decode_pixelIndex W H n hnlt
        rcases G1 pm hpm _ (hpm_eq ▸ hadj) with h | h | h
        · exact absurd hqin h
        · exact (hmarked _).mp (by rw [hqidx] at h; exact h)
        · rw [hqidx] at h
          omega
  have hperm : (r.1.map (pixelIndex W)).Perm SL := by
    rw [List.perm_ext_iff_of_nodup g2 hnd]
    intro a
    constructor
    · intro ha
      obtain ⟨p, hp, hpa⟩ := List.mem_map.mp ha
      exact hpa ▸ hsub p hp
    · intro ha
      obtain ⟨p, hp, hpa⟩ := habsorb a ha
      exact List.mem_map.mpr ⟨p, hp, hpa⟩
  refine ⟨r.1, ?_, hperm, fun p hp => (g3 p hp)⟩
  rw [findContours, List.range_eq_range']
  have hsplit : List.range' 0 (H * W) =
      List.range' 0 n₀ ++ List.range' n₀ ((H * W) - n₀) := by
    have := List.range'_append 0 n₀ ((H * W) - n₀) 1
    simp only [one_mul, Nat.zero_add] at this
    rw [this]
    congr 1
    have hK : n₀ < H * W := by rw [Nat.mul_comm]; exact hn0lt
    omega
  rw [hsplit, List.foldl_append]
  have hpre : (List.range' 0 n₀).foldl (scanStep edgeData W H)
      ([], fun _ => false) = ([], fun _ => false) := by
    refine scanFold_skip edgeData W H _ _ ?_
    rintro n hn ⟨hedge, -⟩
    rw [List.mem_range'] at hn
    obtain ⟨i, hi, rfl⟩ := hn
    have hnin : 0 + 1 * i ∈ SL := (hmem _).mpr ⟨by omega, hedge⟩
    have := hmin _ hnin
    omega
  rw [hpre]
  have hKsub : (H * W) - n₀ = ((H * W) - n₀ - 1) + 1 := by
    have hK : n₀ < H * W := by rw [Nat.mul_comm]; exact hn0lt
    omega
  rw [hKsub, List.range'_succ, List.foldl_cons]
  have hstep : scanStep edgeData W H ([], fun _ => false) n₀ = ([r.1], r.2) := by
    rw [scanStep, if_pos ⟨hn0edge, rfl⟩]
    simp only
    have hlenr : 10 < (traceContour edgeData W H (n₀ % W : ℕ) (n₀ / W : ℕ) 30
        (fun _ => false)).1.length := by
      have : (r.1.map (pixelIndex W)).length = SL.length := hperm.length_eq
      rw [List.length_map] at this
      rw [traceContour]
      rw [← hr]
      omega
    rw [if_pos hlenr]
    rw [traceContour, ← hr]
    simp
  rw [hstep]
  have hsuf : (List.range' (n₀ + 1) ((H * W) - n₀ - 1)).foldl
      (scanStep edgeData W H) ([r.1], r.2) = ([r.1], r.2) := by
    refine scanFold_skip edgeData W H _ _ ?_
    rintro n hn ⟨hedge, hvis⟩
    rw [List.mem_range'] at hn
    obtain ⟨i, hi, rfl⟩ := hn
    have hnin : n₀ + 1 + 1 * i ∈ SL := by
      refine (hmem _).mpr ⟨?_, hedge⟩
      have hK : (H * W) = W * H := Nat.mul_comm H W
      omega
    obtain ⟨p, hp, hpi⟩ := habsorb _ hnin
    have hmk : r.2 (n₀ + 1 + 1 * i) = true := (hmarked _).mpr ⟨p, hp, hpi⟩
    rw [hmk] at hvis
    simp at hvis
  rw [hsuf]
/-- The concrete scenario image of the spec: a 100×100 RGBA buffer, all
black except a white (bright) 20×10 rectangle spanning columns 40–59 and
rows 45–54, with opaque alpha. -/
def synthData : ℕ → ℕ := fun i =>
  if i % 4 = 3 then 255
  else if 40 ≤ i / 4 % 100 ∧ i / 4 % 100 ≤ 59 ∧ 45 ≤ i / 4 / 100 ∧ i / 4 / 100 ≤ 54
  then 255 else 0

/-- Column indicator of the bright rectangle. -/
def ixN (x : ℕ) : ℕ := if 40 ≤ x ∧ x ≤ 59 then 1 else 0

/-- Row indicator of the bright rectangle. -/
def iyN (y : ℕ) : ℕ := if 45 ≤ y ∧ y ≤ 54 then 1 else 0

/-- Horizontal 1-2-1 smoothing of the column indicator. -/
def hxN (x : ℕ) : ℕ := ixN (x - 1) + 2 * ixN x + ixN (x + 1)

/-- Vertical 1-2-1 smoothing of the row indicator. -/
def hyN (y : ℕ) : ℕ := iyN (y - 1) + 2 * iyN y + iyN (y + 1)

/-- Closed form of the blurred luminance of the scenario image: the 3×3
kernel factors as (1,2,1)⊗(1,2,1) over the product indicator. -/
def bC : ℕ → ℕ := fun i =>
  if 1 ≤ i % 100 ∧ i % 100 + 1 < 100 ∧ 1 ≤ i / 100 ∧ i / 100 + 1 < 100 then
    halfEven16 (255 * (hxN (i % 100) * hyN (i / 100)))
  else 0

/-- Grayscale of the scenario image is 255 exactly on the rectangle. -/
theorem synthGray_eq (n : ℕ) :
    convertToGrayscale synthData n = 255 * (ixN (n % 100) * iyN (n / 100)) := by
  have h0 : synthData (4 * n) =
      if 40 ≤ n % 100 ∧ n % 100 ≤ 59 ∧ 45 ≤ n / 100 ∧ n / 100 ≤ 54 then 255 else 0 := by
    rw [synthData, if_neg (by omega), show (4 * n) / 4 = n from by omega]
  have h1 : synthData (4 * n + 1) =
      if 40 ≤ n % 100 ∧ n % 100 ≤ 59 ∧ 45 ≤ n / 100 ∧ n / 100 ≤ 54 then 255 else 0 := by
    rw [synthData, if_neg (by omega), show (4 * n + 1) / 4 = n from by omega]
  have h2 : synthData (4 * n + 2) =
      if 40 ≤ n % 100 ∧ n % 100 ≤ 59 ∧ 45 ≤ n / 100 ∧ n / 100 ≤ 54 then 255 else 0 := by
    rw [synthData, if_neg (by omega), show (4 * n + 2) / 4 = n from by omega]
  rw [convertToGrayscale, h0, h1, h2, ixN, iyN]
  by_cases hx : 40 ≤ n % 100 ∧ n % 100 ≤ 59
  · by_cases hy : 45 ≤ n / 100 ∧ n / 100 ≤ 54
    · rw [if_pos ⟨hx.1, hx.2, hy.1, hy.2⟩, if_pos hx, if_pos hy]
      rfl
    · rw [if_neg (fun hc => hy ⟨hc.2.2.1, hc.2.2.2⟩), if_pos hx, if_neg hy]
      rfl
  · by_cases hy : 45 ≤ n / 100 ∧ n / 100 ≤ 54
    · rw [if_neg (fun hc => hx ⟨hc.1, hc.2.1⟩), if_neg hx, if_pos hy]
      rfl
    · rw [if_neg (fun hc => hx ⟨hc.1, hc.2.1⟩), if_neg hx, if_neg hy]
      rfl

/-- Blur of the scenario grayscale equals its separable closed form. -/
theorem synthBlur_eq (n : ℕ) :
    applyGaussianBlur (convertToGrayscale synthData) 100 100 n = bC n := by
  rw [applyGaussianBlur, bC]
  by_cases hc : 1 ≤ n % 100 ∧ n % 100 + 1 < 100 ∧ 1 ≤ n / 100 ∧ n / 100 + 1 < 100
  · rw [if_pos hc, if_pos hc]
    obtain ⟨hx1, hx2, hy1, hy2⟩ := hc
    rw [synthGray_eq, synthGray_eq, synthGray_eq, synthGray_eq, synthGray_eq,
      synthGray_eq, synthGray_eq, synthGray_eq, synthGray_eq]
    rw [show ((n / 100 - 1) * 100 + (n % 100 - 1)) % 100 = n % 100 - 1 from by omega,
      show ((n / 100 - 1) * 100 + (n % 100 - 1)) / 100 = n / 100 - 1 from by omega,
      show ((n / 100 - 1) * 100 + n % 100) % 100 = n % 100 from by omega,
      show ((n / 100 - 1) * 100 + n % 100) / 100 = n / 100 - 1 from by omega,
      show ((n / 100 - 1) * 100 + (n % 100 + 1)) % 100 = n % 100 + 1 from by omega,
      show ((n / 100 - 1) * 100 + (n % 100 + 1)) / 100 = n / 100 - 1 from by omega,
      show (n / 100 * 100 + (n % 100 - 1)) % 100 = n % 100 - 1 from by omega,
      show (n / 100 * 100 + (n % 100 - 1)) / 100 = n / 100 from by omega,
      show (n / 100 * 100 + n % 100) % 100 = n % 100 from by omega,
      show (n / 100 * 100 + n % 100) / 100 = n / 100 from by omega,
      show (n / 100 * 100 + (n % 100 + 1)) % 100 = n % 100 + 1 from by omega,
      show (n / 100 * 100 + (n % 100 + 1)) / 100 = n / 100 from by omega,
      show ((n / 100 + 1) * 100 + (n % 100 - 1)) % 100 = n % 100 - 1 from by omega,
      show ((n / 100 + 1) * 100 + (n % 100 - 1)) / 100 = n / 100 + 1 from by omega,
      show ((n / 100 + 1) * 100 + n % 100) % 100 = n % 100 from by omega,
      show ((n / 100 + 1) * 100 + n % 100) / 100 = n / 100 + 1 from by omega,
      show ((n / 100 + 1) * 100 + (n % 100 + 1)) % 100 = n % 100 + 1 from by omega,
      show ((n / 100 + 1) * 100 + (n % 100 + 1)) / 100 = n / 100 + 1 from by omega]
    congr 1
    rw [hxN, hyN]
    ring
  · rw [if_neg hc, if_neg hc]

/-- Pointwise congruence of the Sobel stage. -/
theorem applySobel_congr (g g' : ℕ → ℕ) (W H : ℕ) (h : ∀ i, g i = g' i) (n : ℕ) :
    applySobelEdgeDetection g W H n = applySobelEdgeDetection g' W H n := by
  simp only [applySobelEdgeDetection, h]

/-- Closed-form edge map of the scenario image. -/
def eC : ℕ → ℕ :=
  applySobelEdgeDetection bC 100 100

/-- The pipeline's edge map on the scenario image agrees with the closed
form everywhere. -/
theorem synthEdge_eq (n : ℕ) :
    applySobelEdgeDetection
      (applyGaussianBlur (convertToGrayscale synthData) 100 100) 100 100 n = eC n :=
  applySobel_congr _ _ 100 100 synthBlur_eq n
/-- The smoothed column indicator vanishes outside columns 39–60. -/
theorem hxN_zero (x : ℕ) (h : x ≤ 38 ∨ 61 ≤ x) : hxN x = 0 := by
  rw [hxN, ixN, ixN, ixN, if_neg (by omega), if_neg (by omega), if_neg (by omega)]

/-- The smoothed row indicator vanishes outside rows 44–55. -/
theorem hyN_zero (y : ℕ) (h : y ≤ 43 ∨ 56 ≤ y) : hyN y = 0 := by
  rw [hyN, iyN, iyN, iyN, if_neg (by omega), if_neg (by omega), if_neg (by omega)]

/-- The blurred scenario image is black outside the 22×12 halo of the
rectangle. -/
theorem bC_zero (i : ℕ)
    (h : i % 100 ≤ 38 ∨ 61 ≤ i % 100 ∨ i / 100 ≤ 43 ∨ 56 ≤ i / 100) :
    bC i = 0 := by
  rw [bC]
  by_cases hc : 1 ≤ i % 100 ∧ i % 100 + 1 < 100 ∧ 1 ≤ i / 100 ∧ i / 100 + 1 < 100
  · rw [if_pos hc]
    by_cases hx : i % 100 ≤ 38 ∨ 61 ≤ i % 100
    · rw [hxN_zero _ hx, Nat.zero_mul, Nat.mul_zero]
      rfl
    · have hy : i / 100 ≤ 43 ∨ 56 ≤ i / 100 := by tauto
      rw [hyN_zero _ hy, Nat.mul_zero, Nat.mul_zero]
      rfl
  · rw [if_neg hc]

/-- The edge map of the scenario image is black outside the 24×14 window
around the rectangle (so in particular at or below the threshold 30). -/
theorem eC_dark (n : ℕ)
    (h : n % 100 ≤ 37 ∨ 62 ≤ n % 100 ∨ n / 100 ≤ 42 ∨ 57 ≤ n / 100) :
    eC n = 0 := by
  rw [eC, applySobelEdgeDetection]
  by_cases hc : 1 ≤ n % 100 ∧ n % 100 + 1 < 100 ∧ 1 ≤ n / 100 ∧ n / 100 + 1 < 100
  · rw [if_pos hc]
    obtain ⟨h1, h2, h3, h4⟩ := hc
    rw [bC_zero ((n / 100 - 1) * 100 + (n % 100 - 1)) (by omega),
      bC_zero ((n / 100 - 1) * 100 + n % 100) (by omega),
      bC_zero ((n / 100 - 1) * 100 + (n % 100 + 1)) (by omega),
      bC_zero (n / 100 * 100 + (n % 100 - 1)) (by omega),
      bC_zero (n / 100 * 100 + (n % 100 + 1)) (by omega),
      bC_zero ((n / 100 + 1) * 100 + (n % 100 - 1)) (by omega),
      bC_zero ((n / 100 + 1) * 100 + n % 100) (by omega),
      bC_zero ((n / 100 + 1) * 100 + (n % 100 + 1)) (by omega)]
    norm_num
    rfl
  · rw [if_neg hc]

/-- foldl of a pointwise min equals a value that bounds every element from
below and is attained by one of them. -/
theorem foldl_min_eq (f : Pt → ℤ) (p : Pt) (ps : List Pt) (v : ℤ)
    (hlow : ∀ q ∈ p :: ps, v ≤ f q) (hat : ∃ q ∈ p :: ps, f q = v) :
    ps.foldl (fun m q => min m (f q)) (f p) = v := by
  have hs := foldl_min_spec (ps.map f) (f p)
  rw [List.foldl_map] at hs
  obtain ⟨hatt, hle, hlb⟩ := hs
  refine le_antisymm ?_ ?_
  · obtain ⟨q, hq, hqv⟩ := hat
    rcases List.mem_cons.mp hq with rfl | hq
    · exact hqv ▸ hle
    · exact hqv ▸ hlb (f q) (List.mem_map.mpr ⟨q, hq, rfl⟩)
  · rcases hatt with h | h
    · rw [h]; exact hlow p (List.mem_cons_self p ps)
    · obtain ⟨q, hq, hqe⟩ := List.mem_map.mp h
      rw [← hqe]
      exact hlow q (List.mem_cons_of_mem p hq)

/-- foldl of a pointwise max equals a value that bounds every element from
above and is attained by one of them. -/
theorem foldl_max_eq (f : Pt → ℤ) (p : Pt) (ps : List Pt) (v : ℤ)
    (hhigh : ∀ q ∈ p :: ps, f q ≤ v) (hat : ∃ q ∈ p :: ps, f q = v) :
    ps.foldl (fun m q => max m (f q)) (f p) = v := by
  have hs := foldl_max_spec (ps.map f) (f p)
  rw [List.foldl_map] at hs
  obtain ⟨hatt, hle, hub⟩ := hs
  refine le_antisymm ?_ ?_
  · rcases hatt with h | h
    · rw [h]; exact hhigh p (List.mem_cons_self p ps)
    · obtain ⟨q, hq, hqe⟩ := List.mem_map.mp h
      rw [← hqe]
      exact hhigh q (List.mem_cons_of_mem p hq)
  · obtain ⟨q, hq, hqv⟩ := hat
    rcases List.mem_cons.mp hq with rfl | hq
    · exact hqv ▸ hle
    · exact hqv ▸ hub (f q) (List.mem_map.mpr ⟨q, hq, rfl⟩)

/-- The bounding box of a nonempty contour whose coordinates lie in the box
[x0,x1]×[y0,y1] with all four extremes attained. -/
theorem getBoundingBox_eq (p : Pt) (ps : List Pt) (x0 y0 x1 y1 : ℤ)
    (hb : ∀ q ∈ p :: ps, x0 ≤ q.x ∧ q.x ≤ x1 ∧ y0 ≤ q.y ∧ q.y ≤ y1)
    (hax0 : ∃ q ∈ p :: ps, q.x = x0) (hax1 : ∃ q ∈ p :: ps, q.x = x1)
    (hay0 : ∃ q ∈ p :: ps, q.y = y0) (hay1 : ∃ q ∈ p :: ps, q.y = y1) :
    getBoundingBox (p :: ps) = ⟨x0, y0, x1 - x0, y1 - y0⟩ := by
  rw [getBoundingBox]
  rw [foldl_min_eq Pt.x p ps x0 (fun q hq => (hb q hq).1) hax0,
    foldl_min_eq Pt.y p ps y0 (fun q hq => (hb q hq).2.2.1) hay0,
    foldl_max_eq Pt.x p ps x1 (fun q hq => (hb q hq).2.1) hax1,
    foldl_max_eq Pt.y p ps y1 (fun q hq => (hb q hq).2.2.2) hay1]
/-- The indices of the 100x100 edge map of the scenario image whose value
exceeds the threshold 30 (the Sobel ring around the bright rectangle),
listed in ascending raster order. -/
def brightIdx : List ℕ :=
  [4339, 4340, 4341, 4342, 4343, 4344, 4345, 4346, 4347, 4348, 4349, 4350,
   4351, 4352, 4353, 4354, 4355, 4356, 4357, 4358, 4359, 4360, 4438, 4439,
   4440, 4441, 4442, 4443, 4444, 4445, 4446, 4447, 4448, 4449, 4450, 4451,
   4452, 4453, 4454, 4455, 4456, 4457, 4458, 4459, 4460, 4461, 4538, 4539,
   4540, 4541, 4542, 4543, 4544, 4545, 4546, 4547, 4548, 4549, 4550, 4551,
   4552, 4553, 4554, 4555, 4556, 4557, 4558, 4559, 4560, 4561, 4638, 4639,
   4640, 4641, 4642, 4643, 4644, 4645, 4646, 4647, 4648, 4649, 4650, 4651,
   4652, 4653, 4654, 4655, 4656, 4657, 4658, 4659, 4660, 4661, 4738, 4739,
   4740, 4741, 4758, 4759, 4760, 4761, 4838, 4839, 4840, 4841, 4858, 4859,
   4860, 4861, 4938, 4939, 4940, 4941, 4958, 4959, 4960, 4961, 5038, 5039,
   5040, 5041, 5058, 5059, 5060, 5061, 5138, 5139, 5140, 5141, 5158, 5159,
   5160, 5161, 5238, 5239, 5240, 5241, 5258, 5259, 5260, 5261, 5338, 5339,
   5340, 5341, 5342, 5343, 5344, 5345, 5346, 5347, 5348, 5349, 5350, 5351,
   5352, 5353, 5354, 5355, 5356, 5357, 5358, 5359, 5360, 5361, 5438, 5439,
   5440, 5441, 5442, 5443, 5444, 5445, 5446, 5447, 5448, 5449, 5450, 5451,
   5452, 5453, 5454, 5455, 5456, 5457, 5458, 5459, 5460, 5461, 5538, 5539,
   5540, 5541, 5542, 5543, 5544, 5545, 5546, 5547, 5548, 5549, 5550, 5551,
   5552, 5553, 5554, 5555, 5556, 5557, 5558, 5559, 5560, 5561, 5639, 5640,
   5641, 5642, 5643, 5644, 5645, 5646, 5647, 5648, 5649, 5650, 5651, 5652,
   5653, 5654, 5655, 5656, 5657, 5658, 5659, 5660]

set_option maxRecDepth 40000

/-- The bright indices are pairwise distinct. -/
theorem brightIdx_nodup : brightIdx.Nodup := by decide

/-- Every bright index is a valid pixel whose closed-form edge value exceeds
the threshold. -/
theorem brightIdx_bright : ∀ n ∈ brightIdx, n < 100 * 100 ∧ 30 < eC n := by decide

/-- Every above-threshold pixel of the 24×14 window around the rectangle is
listed. -/
theorem brightIdx_window :
    ∀ y < 14, ∀ x < 24,
      30 < eC ((43 + y) * 100 + (38 + x)) → (43 + y) * 100 + (38 + x) ∈ brightIdx := by
  decide

/-- Coordinate bounds of the bright indices. -/
theorem brightIdx_coords :
    ∀ m ∈ brightIdx, 38 ≤ m % 100 ∧ m % 100 ≤ 61 ∧ 43 ≤ m / 100 ∧ m / 100 ≤ 56 := by
  decide

/-- 4339 is the least bright index. -/
theorem brightIdx_min : ∀ m ∈ brightIdx, 4339 ≤ m := by decide

set_option maxHeartbeats 1600000

/-- Raster indices whose decoded coordinates differ by at most one in each
direction (and not by zero in both) decode to 8-neighboring points. -/
theorem mem_neighborPts_of_natAdj (m n : ℕ)
    (hx : n % 100 = m % 100 + 1 ∨ n % 100 = m % 100 ∨ n % 100 + 1 = m % 100)
    (hy : n / 100 = m / 100 + 1 ∨ n / 100 = m / 100 ∨ n / 100 + 1 = m / 100)
    (hne : ¬(n % 100 = m % 100 ∧ n / 100 = m / 100)) :
    (⟨(n % 100 : ℕ), (n / 100 : ℕ)⟩ : Pt) ∈ neighborPts ⟨(m % 100 : ℕ), (m / 100 : ℕ)⟩ := by
  simp only [neighborPts, List.mem_cons, List.not_mem_nil, or_false, Pt.mk.injEq]
  omega

/-- Chain connectivity: every bright index other than the first has a smaller
bright 8-neighbor. -/
theorem brightIdx_conn :
    ∀ n ∈ brightIdx, n = 4339 ∨ ∃ m ∈ brightIdx, m < n ∧
      (⟨(n % 100 : ℕ), (n / 100 : ℕ)⟩ : Pt) ∈ neighborPts ⟨(m % 100 : ℕ), (m / 100 : ℕ)⟩ := by
  have hnat : ∀ n ∈ brightIdx, n = 4339 ∨ ∃ m ∈ brightIdx, m < n ∧
      ((n % 100 = m % 100 + 1 ∨ n % 100 = m % 100 ∨ n % 100 + 1 = m % 100) ∧
        (n / 100 = m / 100 + 1 ∨ n / 100 = m / 100 ∨ n / 100 + 1 = m / 100) ∧
        ¬(n % 100 = m % 100 ∧ n / 100 = m / 100)) := by decide
  intro n hn
  rcases hnat n hn with h | ⟨m, hm, hlt, hxy⟩
  · exact Or.inl h
  · exact Or.inr ⟨m, hm, hlt, mem_neighborPts_of_natAdj m n hxy.1 hxy.2.1 hxy.2.2⟩

/-- The single candidate emitted for the scenario image, as a function of
the traced contour. -/
def tShape (c : List Pt) : TongueShape :=
  { contour := c
    bbox := ⟨38, 43, 23, 13⟩
    area := 299
    aspectRatio := 23 / 13
    centerX := 38 + (23 : ℚ) / 2
    centerY := 43 + (13 : ℚ) / 2
    confidence := 1 / 2 }

/-- Full-pipeline evaluation on the scenario image: exactly one candidate,
with the Sobel-halo bounding box (38, 43, 23, 13), area 299, aspect ratio
23/13, confidence 1/2, and a 236-point contour. -/
theorem detect_synth :
    ∃ t : TongueShape, detect synthData 100 100 15 = [t] ∧
      t.bbox = ⟨38, 43, 23, 13⟩ ∧ t.area = 299 ∧ t.aspectRatio = 23 / 13 ∧
      t.confidence = 1 / 2 ∧ t.contour.length = 236 := by
  have hmem : ∀ n, n ∈ brightIdx ↔ n < 100 * 100 ∧
      30 < applySobelEdgeDetection
        (applyGaussianBlur (convertToGrayscale synthData) 100 100) 100 100 n := by
    intro n
    rw [synthEdge_eq n]
    constructor
    · exact brightIdx_bright n
    · rintro ⟨hlt, hbr⟩
      by_cases hx : 38 ≤ n % 100 ∧ n % 100 ≤ 61 ∧ 43 ≤ n / 100 ∧ n / 100 ≤ 56
      · obtain ⟨hx1, hx2, hy1, hy2⟩ := hx
        have hw := brightIdx_window (n / 100 - 43) (by omega) (n % 100 - 38) (by omega)
        rw [show (43 + (n / 100 - 43)) * 100 + (38 + (n % 100 - 38)) = n from by omega] at hw
        exact hw hbr
      · exact absurd hbr (by rw [eC_dark n (by omega)]; omega)
  obtain ⟨c, hcEq, hperm, hpts⟩ :=
    findContours_single_component
      (applySobelEdgeDetection (applyGaussianBlur (convertToGrayscale synthData) 100 100)
        100 100)
      100 100 4339 brightIdx brightIdx_nodup hmem (by decide) brightIdx_min
      brightIdx_conn (by decide)
  have hlenc : c.length = 236 := by
    have h1 := hperm.length_eq
    rw [List.length_map] at h1
    rw [h1]
    rfl
  have hmemc : ∀ q ∈ c, pixelIndex 100 q ∈ brightIdx := fun q hq =>
    hperm.mem_iff.mp (List.mem_map.mpr ⟨q, hq, rfl⟩)
  have hbnd : ∀ q ∈ c, (38 : ℤ) ≤ q.x ∧ q.x ≤ 61 ∧ (43 : ℤ) ≤ q.y ∧ q.y ≤ 56 := by
    intro q hq
    obtain ⟨hin, -⟩ := hpts q hq
    obtain ⟨hxq, hyq⟩ := pixelIndex_decode 100 100 q hin
    obtain ⟨ha, hb, hc2, hd⟩ := brightIdx_coords _ (hmemc q hq)
    refine ⟨?_, ?_, ?_, ?_⟩
    · rw [← hxq]; exact_mod_cast ha
    · rw [← hxq]; exact_mod_cast hb
    · rw [← hyq]; exact_mod_cast hc2
    · rw [← hyq]; exact_mod_cast hd
  have hattain : ∀ m ∈ brightIdx, ∃ q ∈ c, pixelIndex 100 q = m := by
    intro m hm
    have h2 : m ∈ c.map (pixelIndex 100) := hperm.mem_iff.mpr hm
    obtain ⟨q, hq, he⟩ := List.mem_map.mp h2
    exact ⟨q, hq, he⟩
  have hexX : ∀ m ∈ brightIdx, ∀ v : ℤ, ((m % 100 : ℕ) : ℤ) = v → ∃ q ∈ c, q.x = v := by
    intro m hm v hv
    obtain ⟨q, hq, he⟩ := hattain m hm
    obtain ⟨hin, -⟩ := hpts q hq
    have hd := (pixelIndex_decode 100 100 q hin).1
    rw [he] at hd
    exact ⟨q, hq, by rw [← hd, hv]⟩
  have hexY : ∀ m ∈ brightIdx, ∀ v : ℤ, ((m / 100 : ℕ) : ℤ) = v → ∃ q ∈ c, q.y = v := by
    intro m hm v hv
    obtain ⟨q, hq, he⟩ := hattain m hm
    obtain ⟨hin, -⟩ := hpts q hq
    have hd := (pixelIndex_decode 100 100 q hin).2
    rw [he] at hd
    exact ⟨q, hq, by rw [← hd, hv]⟩
  obtain ⟨p, ps, rfl⟩ := List.exists_cons_of_ne_nil
    (l := c) (by intro h; rw [h] at hlenc; simp at hlenc)
  have hbbox : getBoundingBox (p :: ps) = ⟨38, 43, 23, 13⟩ := by
    have h := getBoundingBox_eq p ps 38 43 61 56 hbnd
      (hexX 4738 (by decide) 38 (by decide))
      (hexX 4761 (by decide) 61 (by decide))
      (hexY 4339 (by decide) 43 (by decide))
      (hexY 5660 (by decide) 56 (by decide))
    rw [h]
    decide
  have hclass : classifyContour 100 100 (p :: ps) = some (tShape (p :: ps)) := by
    apply (classifyContour_some_iff 100 100 (p :: ps) (tShape (p :: ps))).mpr
    rw [hbbox]
    refine ⟨by norm_num, by norm_num, by norm_num, by norm_num, by norm_num,
      by norm_num, ?_⟩
    simp only [tShape, TongueShape.mk.injEq]
    norm_num [calculateTongueConfidence_eq, min_def]
  have hfm : List.filterMap (classifyContour 100 100) [p :: ps] = [tShape (p :: ps)] := by
    rw [List.filterMap_cons_some hclass, List.filterMap_nil]
  have hsort : List.insertionSort confDesc [tShape (p :: ps)] = [tShape (p :: ps)] := rfl
  have hro : removeOverlappingTongues [tShape (p :: ps)] = [tShape (p :: ps)] := by
    simp [removeOverlappingTongues]
  have hfloor : (⌊max (((15 : ℕ) : ℚ) * (3 / 2)) (((15 : ℕ) : ℚ) + 5)⌋).toNat = 22 := by
    rw [show max (((15 : ℕ) : ℚ) * (3 / 2)) (((15 : ℕ) : ℚ) + 5) = 45 / 2 from by norm_num]
    rw [show ⌊(45 / 2 : ℚ)⌋ = 22 from by rw [Int.floor_eq_iff]; norm_num]
    rfl
  refine ⟨tShape (p :: ps), ?_, rfl, rfl, rfl, rfl, hlenc⟩
  rw [detect, hcEq, filterTongueShapes]
  simp only [hfm, hsort, hro, hfloor]
  rfl

/-- Claim C5 counterexample: on the spec's own scenario (100×100 image, one
bright 20×10 rectangle, edgeThreshold 30) the pipeline produces exactly one
candidate, but that candidate's confidence is below the claimed 0.8 bound. -/
theorem claim_C5_counterexample :
    (detect synthData 100 100 15).length = 1 ∧
      ∃ t ∈ detect synthData 100 100 15, t.confidence < 4 / 5 := by
  obtain ⟨t, heq, -, -, -, hconf, -⟩ := detect_synth
  rw [heq]
  exact ⟨rfl, t, List.mem_singleton_self t, by rw [hconf]; norm_num⟩

/-- Claim C5 (amended): on the synthetic scenario the pipeline emits exactly
one candidate; its bounding box (38, 43, 23, 13) is the Sobel edge ring
around the rectangle (extending two pixels beyond each side), giving area
299 and aspect ratio 23/13, which earns neither the aspect-ratio bonus
(23/13 < 2) nor the area bonus (299 ≤ 1000), so the confidence is exactly
0.5 and in particular below the claimed 0.8. -/
theorem claim_C5 :
    ∃ t : TongueShape, detect synthData 100 100 15 = [t] ∧
      t.bbox = ⟨38, 43, 23, 13⟩ ∧ t.area = 299 ∧ t.aspectRatio = 23 / 13 ∧
      t.confidence = 1 / 2 ∧ t.confidence < 4 / 5 := by
  obtain ⟨t, heq, hb, ha, har, hconf, -⟩ := detect_synth
  exact ⟨t, heq, hb, ha, har, hconf, by rw [hconf]; norm_num⟩
